import Mathlib

/-!
Shallow embedding of the proof-of-work ledger server (`server.js`) and proofs
about its specification claims.

The JavaScript source is embedded as executable Lean definitions.  External
library calls are represented as explicit function parameters:

* `sha : String → String` stands for `crypto.createHash('sha256').update(s).digest('hex')`
  applied to a header string;
* `dsha : List Nat → List Nat` stands for `doubleSha256` on a byte buffer
  (bytes are `Nat` values `< 256`);
* random draws (`Math.random`, `crypto.randomBytes`) are supplied as oracle
  functions `g, ga : Nat → Nat` and `rh : Nat → String` indexed by draw number.

JavaScript dynamic values reaching the tolerant import-path validator are
modelled by `JSVal` (string / number / NaN / undefined); `Number` coercion is
`none` when the source value coerces to `NaN`.  Fallible operations (`Buffer`
range errors, array indexing crashes, unbounded loops run with fuel) return
`Option`.
-/

set_option linter.unusedVariables false
set_option maxRecDepth 100000

namespace Server

/-- JavaScript dynamic value as it can appear in a field of an imported
chain record: absent (`undefined`), a string, an integer number, or `NaN`. -/
inductive JSVal where
  | undef : JSVal
  | vStr (s : String) : JSVal
  | vNum (n : Int) : JSVal
  | vNaN : JSVal
deriving DecidableEq, Repr

/-- JavaScript `a ?? b` (our model has no `null`; `undef` is the nullish case). -/
def jsOr (a b : JSVal) : JSVal :=
  match a with
  | .undef => b
  | _ => a

/-- JavaScript `String(v)` / template interpolation of a value. -/
def jsToStr : JSVal → String
  | .undef => "undefined"
  | .vStr s => s
  | .vNum n => toString n
  | .vNaN => "NaN"

/-- Decimal digit run to a natural number (accumulator form). -/
def digitsToNatAux (acc : Nat) : List Char → Nat
  | [] => acc
  | c :: l => digitsToNatAux (acc * 10 + (c.toNat - 48)) l

/-- Whitespace characters relevant to this system's strings. -/
def isJsWS (c : Char) : Bool :=
  c == ' ' || c == '\n' || c == '\t' || c == '\r'

/-- JavaScript `s.trim()` on a character list. -/
def jsTrimList (l : List Char) : List Char :=
  ((l.dropWhile isJsWS).reverse.dropWhile isJsWS).reverse

/-- JavaScript `s.trim()`. -/
def jsTrim (s : String) : String :=
  String.mk (jsTrimList s.data)

/-- Left-to-right split of a character list on a non-empty separator
(fuelled so it evaluates by kernel reduction; the fuel is the list length,
ample since every step consumes at least one character). -/
def splitSepFuel (sep : List Char) : Nat → List Char → List Char → List (List Char)
  | 0, l, acc => [acc.reverse ++ l]
  | f + 1, l, acc =>
    match l with
    | [] => [acc.reverse]
    | c :: rest =>
      if sep ≠ [] ∧ sep.isPrefixOf l then
        acc.reverse :: splitSepFuel sep f (l.drop sep.length) []
      else splitSepFuel sep f rest (c :: acc)

/-- JavaScript `s.split(sep)` for a non-empty literal separator. -/
def jsSplitOn (s sep : String) : List String :=
  (splitSepFuel sep.data (s.data.length + 1) s.data []).map String.mk

/-- Lower-casing of an ASCII character. -/
def toLowerChar (c : Char) : Char :=
  if 'A' ≤ c ∧ c ≤ 'Z' then Char.ofNat (c.toNat + 32) else c

/-- JavaScript `Number(s)` on a string, restricted to the decimal-integer
strings this system produces (`''` is `0`, optionally signed digit runs are
parsed, anything else is `NaN = none`). -/
def jsStrToNum (s : String) : Option Int :=
  let t := jsTrim s
  if t = "" then some 0
  else
    match t.data with
    | '-' :: rest =>
        if rest ≠ [] ∧ rest.all Char.isDigit then some (-(digitsToNatAux 0 rest : Int)) else none
    | '+' :: rest =>
        if rest ≠ [] ∧ rest.all Char.isDigit then some ((digitsToNatAux 0 rest : Int)) else none
    | l => if l.all Char.isDigit then some ((digitsToNatAux 0 l : Int)) else none

/-- JavaScript `Number(v)`; `none` is `NaN`. -/
def jsToNum : JSVal → Option Int
  | .undef => none
  | .vNaN => none
  | .vNum n => some n
  | .vStr s => jsStrToNum s

/-- Rendering of a JavaScript number (possibly `NaN`) into a template string. -/
def numToStr : Option Int → String
  | none => "NaN"
  | some n => toString n

/-- JavaScript strict equality `number === v`: true only when `v` is a
number equal to it (`NaN` compares unequal to everything). -/
def jsEqNumVal (a : Option Int) (b : JSVal) : Bool :=
  match a, b with
  | some n, .vNum m => n == m
  | _, _ => false

/-- JavaScript strict equality `string === v`. -/
def jsEqStrVal (a : String) (b : JSVal) : Bool :=
  match b with
  | .vStr t => a == t
  | _ => false

/-- JavaScript `v + 1` for a record field: numeric increment, string
concatenation with `"1"`, `NaN` propagation. -/
def jsAdd1 : JSVal → JSVal
  | .undef => .vNaN
  | .vNaN => .vNaN
  | .vNum n => .vNum (n + 1)
  | .vStr s => .vStr (s ++ "1")

/-- JavaScript `s.startsWith(pre)`. -/
def jsStartsWith (s pre : String) : Bool :=
  pre.data.isPrefixOf s.data

/-- The proof-of-work target `'0'.repeat(diff)`. -/
def zeros (diff : Nat) : String :=
  String.mk (List.replicate diff '0')

/-- Count of leading `'0'` characters of a character list. -/
def leadingZerosList : List Char → Nat
  | '0' :: l => leadingZerosList l + 1
  | _ => 0

/-- Count of leading `'0'` characters of a hex string. -/
def leadingZeroCount (s : String) : Nat :=
  leadingZerosList s.data

/-- Value of one hexadecimal digit, if any. -/
def hexDigitVal? (c : Char) : Option Nat :=
  if '0' ≤ c ∧ c ≤ '9' then some (c.toNat - 48)
  else if 'a' ≤ c ∧ c ≤ 'f' then some (c.toNat - 87)
  else if 'A' ≤ c ∧ c ≤ 'F' then some (c.toNat - 55)
  else none

/-- Byte list of a hex character list; like Node's `Buffer.from(s, 'hex')`
it stops at the first invalid or incomplete pair. -/
def hexDecode : List Char → List Nat
  | c1 :: c2 :: rest =>
    match hexDigitVal? c1, hexDigitVal? c2 with
    | some h, some l => (16 * h + l) :: hexDecode rest
    | _, _ => []
  | _ => []

/-- Byte list of a hex string (`Buffer.from(hexStr, 'hex')`). -/
def hexDecodeStr (s : String) : List Nat :=
  hexDecode s.data

/-- Lower-case hex digit of a value `< 16`. -/
def hexDigitChar (n : Nat) : Char :=
  if n < 10 then Char.ofNat (48 + n) else Char.ofNat (87 + n)

/-- Two-digit hex rendering of one byte. -/
def byteToHex (b : Nat) : List Char :=
  [hexDigitChar (b / 16 % 16), hexDigitChar (b % 16)]

/-- Hex string of a byte list (`buf.toString('hex')`). -/
def bytesToHex (bs : List Nat) : String :=
  String.mk (bs.map byteToHex).flatten

/-- Transaction input `{ txid, index }` (a `sequence` property is read with
default `0xffffffff` by the serializer but never set by this server). -/
structure TxIn where
  txid : String
  index : Nat
  sequence : Option Nat := none
deriving DecidableEq, Repr

/-- Transaction output `{ value (sats), scriptPubKey (hex) }`. -/
structure TxOut where
  value : Int
  scriptPubKey : String
deriving DecidableEq, Repr

/-- Transaction object.  The constructor `new Tx(inputs, outputs)` sets
`version = 1` and `locktime = 0`; `txid`, `note`, `fee` and `isCoinbase` are
assigned later by the workload generator / coinbase builder (`txid = ""`
models the property being unset). -/
structure Tx where
  version : Nat := 1
  inputs : List TxIn
  outputs : List TxOut
  locktime : Nat := 0
  txid : String := ""
  note : Option String := none
  fee : Option Int := none
  isCoinbase : Bool := false
deriving DecidableEq, Repr

/-- Little-endian byte rendering of a natural number in `k` bytes. -/
def natLEBytes (n : Nat) : Nat → List Nat
  | 0 => []
  | k + 1 => n % 256 :: natLEBytes (n / 256) k

/-- Model of `buf.writeUInt32LE(n)`: little-endian bytes, or a thrown
`RangeError` (`none`) when the value does not fit an unsigned 32-bit field. -/
def u32le (n : Nat) : Option (List Nat) :=
  if n < 4294967296 then some (natLEBytes n 4) else none

/-- Model of `buf.writeBigUInt64LE(BigInt(v))`: little-endian bytes, or a
thrown `RangeError` (`none`) when the value is negative or exceeds 64 bits. -/
def u64le (v : Int) : Option (List Nat) :=
  if 0 ≤ v ∧ v < 18446744073709551616 then some (natLEBytes v.toNat 8) else none

/-- Serialization of one input: reversed txid bytes, 4-byte LE index, the
fixed empty-script marker `0x00`, and the 4-byte LE sequence
(`inp.sequence ?? 0xffffffff`). -/
def encInput (inp : TxIn) : Option (List Nat) := do
  let idx ← u32le inp.index
  let seq ← u32le (inp.sequence.getD 4294967295)
  pure ((hexDecodeStr inp.txid).reverse ++ idx ++ [0] ++ seq)

/-- Serialization of the input list in order. -/
def encInputs : List TxIn → Option (List Nat)
  | [] => some []
  | i :: rest => do
    let hd ← encInput i
    let tl ← encInputs rest
    pure (hd ++ tl)

/-- Serialization of one output: 8-byte LE value, script length byte
(`Buffer.from([script.length])` truncates modulo 256), script bytes. -/
def encOutput (o : TxOut) : Option (List Nat) := do
  let val ← u64le o.value
  let script := hexDecodeStr o.scriptPubKey
  pure (val ++ [script.length % 256] ++ script)

/-- Serialization of the output list in order. -/
def encOutputs : List TxOut → Option (List Nat)
  | [] => some []
  | o :: rest => do
    let hd ← encOutput o
    let tl ← encOutputs rest
    pure (hd ++ tl)

/-- `Tx.createTxHex` as a byte list: version (4 LE) · input count (1 byte,
`Buffer.from([n])` truncates modulo 256) · inputs · output count (1 byte,
truncated modulo 256) · outputs · locktime (4 LE).  `none` models the
serializer throwing (only possible on out-of-range numeric fields; oversized
scripts and counts are silently truncated). -/
def createTxBytes (tx : Tx) : Option (List Nat) := do
  let ver ← u32le tx.version
  let ins ← encInputs tx.inputs
  let outs ← encOutputs tx.outputs
  let lt ← u32le tx.locktime
  pure (ver ++ [tx.inputs.length % 256] ++ ins ++ [tx.outputs.length % 256] ++ outs ++ lt)

/-- `Tx.createTxHex`: the serialization rendered as a hex string. -/
def createTxHex (tx : Tx) : Option String :=
  (createTxBytes tx).map bytesToHex

/-- `Tx.getTxid`: double-SHA256 of the serialization with the digest
byte-reversed, rendered as hex.  (`Buffer.from(txHex, 'hex')` recovers the
exact serialized bytes, so `dsha` is applied to them directly.) -/
def getTxid (dsha : List Nat → List Nat) (tx : Tx) : Option String :=
  (createTxBytes tx).map (fun bs => bytesToHex (dsha bs).reverse)

/-- One level of `computeMerkleRoot`'s `while` loop: duplicate the last node
when the level has odd cardinality, then hash adjacent pairs and re-reverse
each digest into little-endian order for the next level. -/
def merklePairs (dsha : List Nat → List Nat) : List (List Nat) → List (List Nat)
  | a :: b :: rest => (dsha (a ++ b)).reverse :: merklePairs dsha rest
  | _ => []

/-- Pad a level to even cardinality by duplicating its last node. -/
def merklePad (level : List (List Nat)) : List (List Nat) :=
  if level.length % 2 = 1 then level ++ [level.getLastD []] else level

/-- The `while (level.length > 1)` loop, run with fuel (one initial-level
element per unit is ample since each pass halves the level). -/
def merkleLoop (dsha : List Nat → List Nat) : Nat → List (List Nat) → List (List Nat)
  | 0, level => level
  | f + 1, level =>
    if level.length ≤ 1 then level
    else merkleLoop dsha f (merklePairs dsha (merklePad level))

/-- `computeMerkleRoot`: fold big-endian hex txids (converted to LE byte
buffers) pairwise with the double hash; the empty list yields
`Buffer.alloc(32).toString('hex')`, 64 zero characters. -/
def computeMerkleRoot (dsha : List Nat → List Nat) (txidsBE : List String) : String :=
  let level := txidsBE.map (fun h => (hexDecodeStr h).reverse)
  if level.length = 0 then String.mk (List.replicate 64 '0')
  else bytesToHex ((merkleLoop dsha level.length level).headD []).reverse

/-- One stored UTXO entry `{ index, value, scriptPubKey, spent }`. -/
structure PoolEntry where
  index : Nat
  value : Int
  scriptPubKey : String
  spent : Bool
deriving DecidableEq, Repr

/-- The `UTXOPool`'s backing `Map`, as an insertion-ordered association
list from txid to entry list. -/
abbrev Pool := List (String × List PoolEntry)

/-- `Map.get`: the value of the first (only) binding for the key. -/
def poolGet (p : Pool) (txid : String) : Option (List PoolEntry) :=
  (p.find? (fun kv => kv.1 == txid)).map (fun kv => kv.2)

/-- `Map.set`: replaces an existing binding in place, otherwise appends. -/
def poolSet (p : Pool) (txid : String) (v : List PoolEntry) : Pool :=
  if p.any (fun kv => kv.1 == txid) then
    p.map (fun kv => if kv.1 == txid then (kv.1, v) else kv)
  else p ++ [(txid, v)]

/-- `UTXOPool.addTxOutputs`: registers all outputs of a transaction as fresh
unspent entries, overwriting any previous binding for that txid. -/
def addTxOutputs (p : Pool) (txid : String) (outputs : List TxOut) : Pool :=
  let arr := outputs.enum.map (fun io => PoolEntry.mk io.1 io.2.value io.2.scriptPubKey false)
  poolSet p txid arr

/-- A UTXO as returned by `listAvailable`. -/
structure UTXORef where
  txid : String
  index : Nat
  value : Int
  scriptPubKey : String
deriving DecidableEq, Repr

/-- `UTXOPool.listAvailable`: all unspent entries in map-insertion order,
then entry order. -/
def listAvailable (p : Pool) : List UTXORef :=
  (p.map (fun kv =>
    (kv.2.filter (fun o => !o.spent)).map
      (fun o => UTXORef.mk kv.1 o.index o.value o.scriptPubKey))).flatten

/-- Mark the first entry with the requested index as spent; `none` when it
is missing or already spent (the source's `outs.find` returns the first
match and is mutated in place). -/
def spendEntries : List PoolEntry → Nat → Option (List PoolEntry)
  | [], _ => none
  | o :: rest, i =>
    if o.index == i then
      if o.spent then none else some ({ o with spent := true } :: rest)
    else (spendEntries rest i).map (fun rest' => o :: rest')

/-- `UTXOPool.spend`: boolean success flag plus the updated pool (unchanged
on failure). -/
def spend (p : Pool) (txid : String) (i : Nat) : Bool × Pool :=
  match poolGet p txid with
  | none => (false, p)
  | some outs =>
    match spendEntries outs i with
    | none => (false, p)
    | some outs' => (true, poolSet p txid outs')

/-- First entry stored under `(txid, i)`, mirroring the lookup pattern
`pool.get(txid)` then `outs.find(x => x.index === index)`. -/
def findEntry (p : Pool) (txid : String) (i : Nat) : Option PoolEntry :=
  (poolGet p txid).bind (fun outs => outs.find? (fun o => o.index == i))

/-- Block object: header fields, full transaction list, and the stored
header hash. -/
structure Block where
  idx : Int
  prevHash : String
  transactions : List Tx
  ts : String
  nonce : Int
  merkleRoot : String
  hash : String
deriving DecidableEq, Repr

/-- `Block.headerString`: the pipe-joined deterministic header rendering. -/
def headerString (b : Block) : String :=
  toString b.idx ++ "|" ++ b.ts ++ "|" ++ b.prevHash ++ "|" ++ b.merkleRoot ++ "|" ++ toString b.nonce

/-- `Block.computeHeaderHash`: single SHA-256 (hex) of the header string. -/
def computeHeaderHash (sha : String → String) (b : Block) : String :=
  sha (headerString b)

/-- The `Block` constructor: timestamp captured at construction is passed in
(`new Date().toISOString()` is an environment effect), nonce starts at 0,
the Merkle root is derived from the transactions' txids, and the initial
hash is computed. -/
def Block.make (dsha : List Nat → List Nat) (sha : String → String)
    (idx : Int) (prevHash : String) (transactions : List Tx) (ts : String) : Block :=
  let txids := transactions.map (fun tx => tx.txid)
  let b : Block :=
    { idx := idx, prevHash := prevHash, transactions := transactions, ts := ts,
      nonce := 0, merkleRoot := computeMerkleRoot dsha txids, hash := "" }
  { b with hash := computeHeaderHash sha b }

/-- The `Blockchain` container: configured difficulty, block list, UTXO pool. -/
structure Blockchain where
  diff : Nat
  chain : List Block
  utxo : Pool
deriving Repr

/-- `Blockchain.mineHeader`, with fuel for the unbounded `while (true)`
search: recompute the header hash, return on meeting the target, else
increment the nonce and retry. -/
def mineHeaderFuel (sha : String → String) (diff : Nat) (b : Block) : Nat → Option Block
  | 0 => none
  | f + 1 =>
    let h := computeHeaderHash sha b
    if jsStartsWith h (zeros diff) then some { b with hash := h }
    else mineHeaderFuel sha diff { b with hash := h, nonce := b.nonce + 1 } f

/-- The coinbase sentinel identifier literal, exactly as written in the
source (`'0000…0'`). -/
def coinbaseSentinel : String :=
  "0000000000000000000000000000000000000000000000000000000000000000"

/-- The per-transaction UTXO update inside `mineBlock`: spend each input's
referenced output (skipping coinbase-sentinel inputs), then register the
transaction's outputs. -/
def applyTxToPool (pool : Pool) (tx : Tx) : Pool :=
  let pool1 := tx.inputs.foldl
    (fun p inp => if inp.txid == coinbaseSentinel then p else (spend p inp.txid inp.index).2)
    pool
  addTxOutputs pool1 tx.txid tx.outputs

/-- `Blockchain.mineBlock`: build the next block on top of the last one,
run proof-of-work, apply each transaction's UTXO effects in list order, and
append the block.  `none` models a crash on an empty chain (never happens:
the constructor seeds a genesis block) or exhausted mining fuel. -/
def mineBlock (dsha : List Nat → List Nat) (sha : String → String)
    (bc : Blockchain) (transactions : List Tx) (ts : String) (fuel : Nat) :
    Option (Blockchain × Block) :=
  match bc.chain.getLast? with
  | none => none
  | some latest =>
    let newBlock := Block.make dsha sha (latest.idx + 1) latest.hash transactions ts
    match mineHeaderFuel sha bc.diff newBlock fuel with
    | none => none
    | some mined =>
      let utxo1 := transactions.foldl applyTxToPool bc.utxo
      some ({ bc with chain := bc.chain ++ [mined], utxo := utxo1 }, mined)

/-- One diagnostic record of a validator verdict (`idx` is a JavaScript
number, hence possibly `NaN` on the import path). -/
structure Det where
  idx : Option Int
  isHashVal : Bool
  isPowVal : Bool
  isPrevVal : Bool
  isIdxVal : Bool
  blkVal : Bool
  cc : Bool
deriving DecidableEq, Repr

/-- A validator verdict `{ isValid, invBlkIdx, dets }`. -/
structure Verdict where
  isValid : Bool
  invBlkIdx : List (Option Int)
  dets : List Det
deriving DecidableEq, Repr

/-- The per-block body of `Blockchain.validateChain`'s loop: the four local
checks, the cascading flag, and the combined `blkVal`. -/
def liveDet (sha : String → String) (target : String)
    (prev : Option Block) (cc : Bool) (curr : Block) : Det :=
  let headerStr := toString curr.idx ++ "|" ++ curr.ts ++ "|" ++ curr.prevHash ++ "|" ++
    curr.merkleRoot ++ "|" ++ toString curr.nonce
  let reHash := sha headerStr
  let isHashVal := reHash == curr.hash
  let isPowVal := jsStartsWith curr.hash target
  let isIdxVal :=
    match prev with
    | none => curr.idx == 0
    | some p => curr.idx == p.idx + 1
  let isPrevVal :=
    match prev with
    | none => curr.prevHash == "0"
    | some p => curr.prevHash == p.hash
  let blkVal := !cc && isHashVal && isPowVal && isPrevVal && isIdxVal
  ⟨some curr.idx, isHashVal, isPowVal, isPrevVal, isIdxVal, blkVal, cc⟩

/-- The validation loop shared in shape by both validators: one diagnostic
per item, `isValid` falsified and the item's reported index pushed on every
failure, the cascading flag latched by `ccInv = true`.  Each validator is
the instantiation with its own per-item diagnostic body. -/
def valGoGen (step : Option α → Bool → α → Det) :
    Option α → Bool → List α → Verdict
  | _, _, [] => ⟨true, [], []⟩
  | prev, cc, curr :: rest =>
    let det := step prev cc curr
    let restV := valGoGen step (some curr) (cc || !det.blkVal) rest
    ⟨restV.isValid && det.blkVal,
     (if det.blkVal then [] else [det.idx]) ++ restV.invBlkIdx,
     det :: restV.dets⟩

/-- The indexed loop of `Blockchain.validateChain`, carrying the previous
block and the cascading-invalidity flag. -/
def valGo (sha : String → String) (target : String) :
    Option Block → Bool → List Block → Verdict :=
  valGoGen (liveDet sha target)

/-- `Blockchain.validateChain`: forward validation of the live chain at the
instance's difficulty. -/
def validateChain (sha : String → String) (bc : Blockchain) : Verdict :=
  valGo sha (zeros bc.diff) none false bc.chain

/-- A loosely-typed record recovered from an uploaded file, with every field
name the import-path validator probes for.  Absent properties are `undef`. -/
structure RawRecord where
  idx : JSVal := .undef
  Index : JSVal := .undef
  nonce : JSVal := .undef
  Nonce : JSVal := .undef
  prevHash : JSVal := .undef
  previousHash : JSVal := .undef
  previous_hash : JSVal := .undef
  hash : JSVal := .undef
  ts : JSVal := .undef
  Timestamp : JSVal := .undef
  merkleRoot : JSVal := .undef
  transactions : JSVal := .undef
  data : JSVal := .undef
  Data : JSVal := .undef
deriving DecidableEq, Repr

/-- The record `{}` (all fields absent); also what `chain[i] || {}` yields
for a missing element. -/
def emptyRaw : RawRecord := {}

/-- The `idx` coercion performed by `validChain` on a record:
`Number(raw.idx ?? raw.Index ?? 0)`. -/
def rawIdxOf (raw : RawRecord) : Option Int :=
  jsToNum (jsOr (jsOr raw.idx raw.Index) (.vNum 0))

/-- The per-record body of `validChain`'s loop: alias resolution with
defaults, coercions, the four local checks, cascade flag and `blkVal`.
The source also computes `dataRaw = raw.transactions ?? raw.data ?? raw.Data`
but never uses it. -/
def rawDet (sha : String → String) (target : String)
    (prev : Option RawRecord) (cc : Bool) (raw : RawRecord) : Det :=
  let prevHashRaw := jsOr (jsOr (jsOr raw.prevHash raw.previousHash) raw.previous_hash) (.vStr "")
  let hashRaw := jsOr raw.hash (.vStr "")
  let idxRaw := jsOr (jsOr raw.idx raw.Index) (.vNum 0)
  let nonceRaw := jsOr (jsOr raw.nonce raw.Nonce) (.vNum 0)
  let tsRaw := jsOr (jsOr raw.ts raw.Timestamp) (.vStr "")
  let bIdx : Option Int := jsToNum idxRaw
  let prevHashStr := jsToStr (jsOr prevHashRaw (.vStr ""))
  let hashStr := jsToStr (jsOr hashRaw (.vStr ""))
  let tsStr := jsToStr (jsOr tsRaw (.vStr ""))
  let nonceNum : Option Int := jsToNum (jsOr nonceRaw (.vNum 0))
  let headerStr := numToStr bIdx ++ "|" ++ tsStr ++ "|" ++ prevHashStr ++ "|" ++
    jsToStr (jsOr raw.merkleRoot (.vStr "")) ++ "|" ++ numToStr nonceNum
  let reHash := sha headerStr
  let isHashVal := reHash == hashStr
  let isPowVal := jsStartsWith hashStr target
  let isIdxVal :=
    match prev with
    | none => jsEqNumVal bIdx (.vNum 0)
    | some p => jsEqNumVal bIdx (jsAdd1 (jsOr p.idx (.vNum (-1))))
  let isPrevVal :=
    match prev with
    | none => prevHashStr == "0"
    | some p => jsEqStrVal prevHashStr p.hash
  let blkVal := !cc && isHashVal && isPowVal && isPrevVal && isIdxVal
  ⟨bIdx, isHashVal, isPowVal, isPrevVal, isIdxVal, blkVal, cc⟩

/-- The indexed loop of the import-path `validChain`. -/
def valGoRaw (sha : String → String) (target : String) :
    Option RawRecord → Bool → List RawRecord → Verdict :=
  valGoGen (rawDet sha target)

/-- `validChain(chain, diff)`: the tolerant validator run over externally
supplied records. -/
def validChain (sha : String → String) (chain : List RawRecord) (diff : Nat) : Verdict :=
  valGoRaw sha (zeros diff) none false chain

/-- `p2pkhScript`: `OP_DUP OP_HASH160 <20 bytes> OP_EQUALVERIFY OP_CHECKSIG`. -/
def p2pkhScript (pubKeyHash20 : String) : String :=
  "76a914" ++ pubKeyHash20 ++ "88ac"

/-- `createCoinbaseTx`: one sentinel input with index `0xffffffff`, one
50 BTC subsidy output, forced sentinel txid, `isCoinbase` marker. -/
def createCoinbaseTx (minerPubKeyHash : String) : Tx :=
  let coin : Tx :=
    { inputs := [{ txid := coinbaseSentinel, index := 4294967295 }],
      outputs := [{ value := 50 * 100000000, scriptPubKey := p2pkhScript minerPubKeyHash }] }
  { coin with txid := coinbaseSentinel, isCoinbase := true }

/-- The sending-amount computation of the workload generator, for an input
of value giving `maxSend` and one random draw `r` (hence
`Math.floor(Math.random() * maxSend)` is modelled as `r % maxSend`, the
general element of its range `[0, maxSend)`, and `0` when `maxSend = 0`):
`Math.floor(Math.max(1, Math.min(maxSend, Math.floor(Math.random() * maxSend) + 1)))`. -/
def sendAmtOf (maxSend : Int) (r : Nat) : Int :=
  let inner : Int := if maxSend ≤ 0 then 0 else (r : Int) % maxSend
  max 1 (min maxSend (inner + 1))

/-- The five rotating use-case notes. -/
def usecaseNote : Nat → String
  | 0 => "Alice pays Bob (shopping)"
  | 1 => "Charlie pays Dave (peer payment)"
  | 2 => "Eve buys coffee"
  | 3 => "Donation to charity"
  | _ => "Micro tip to content creator"

/-- One generated spend: a single input consuming the chosen UTXO and two
outputs (payment + change) with `change = value − sendAmt − fee`,
`fee = 10000`; the note and fee metadata are attached as in the source. -/
def buildSpendTx (u : UTXORef) (r : Nat) (recipientHash changeHash note : String) : Tx :=
  let fee : Int := 10000
  let maxSend := max 0 (u.value - fee - 1000)
  let sendAmt := sendAmtOf maxSend r
  let change := u.value - sendAmt - fee
  { inputs := [{ txid := u.txid, index := u.index }],
    outputs :=
      [{ value := sendAmt, scriptPubKey := p2pkhScript recipientHash },
       { value := change, scriptPubKey := p2pkhScript changeHash }],
    note := some note, fee := some fee }

/-- One spend with its txid computed and attached (`tx.txid = tx.getTxid()`;
`none` when serialization throws). -/
def mkSpendTxWithId (dsha : List Nat → List Nat)
    (u : UTXORef) (r : Nat) (recipientHash changeHash note : String) : Option Tx := do
  let t0 := buildSpendTx u r recipientHash changeHash note
  let id ← getTxid dsha t0
  pure { t0 with txid := id }

/-- Option-valued map over a list, modelling a JS loop whose body can throw. -/
def optionMapList (f : α → Option β) : List α → Option (List β)
  | [] => some []
  | a :: l => do
    let b ← f a
    let rest ← optionMapList f l
    pure (b :: rest)

/-- The `while (chosenUTXOs.length < 5 && poolCopy.length > 0)` selection
loop: draw a random position, move that UTXO from the copied pool into the
chosen list (`splice` removal).  Fuel is the initial pool-copy length, which
bounds the number of removals. -/
def pickLoop (g : Nat → Nat) : Nat → Nat → List UTXORef → List UTXORef → List UTXORef
  | 0, _, chosen, _ => chosen
  | f + 1, i, chosen, poolCopy =>
    if chosen.length < 5 ∧ 0 < poolCopy.length then
      let idx := g i % poolCopy.length
      match poolCopy.get? idx with
      | none => chosen
      | some u => pickLoop g f (i + 1) (chosen ++ [u]) (poolCopy.eraseIdx idx)
    else chosen

/-- The working copy of the UTXO list the generator draws from
(`poolCopy` after the faucet block): the available UTXOs, extended — when
fewer than 5 are available — by the pushed faucet reference (which the
source builds with a second, freshly drawn script distinct from the one it
registers into the pool). -/
def candidateUTXOs (rh : Nat → String) (utxoPool : Pool) : List UTXORef :=
  let available := listAvailable utxoPool
  if available.length < 5 then
    available ++ [{ txid := rh 0, index := 0, value := 50000000,
                    scriptPubKey := p2pkhScript (rh 2) }]
  else available

/-- `createFiveRandomTxs`: list the available UTXOs; if fewer than 5, inject
a synthetic faucet UTXO into the pool; choose up to 5 distinct UTXOs at
random from the working copy; build five spends cycling through the chosen
list.  The source's single faucet `if` both registers the faucet output and
pushes the copy entry; those two effects are rendered as two conditionals
on the same test, the extended copy being `candidateUTXOs`.  Returns the
transactions (`none` if a serialization throws or indexing crashes) and the
possibly-extended pool.  `g` serves the `randomize` draws, `ga` the
per-transaction amount draws, `rh` the `randHex` draws. -/
def createFiveRandomTxs (dsha : List Nat → List Nat) (g ga : Nat → Nat) (rh : Nat → String)
    (utxoPool : Pool) : Option (List Tx) × Pool :=
  let available := listAvailable utxoPool
  let pool1 :=
    if available.length < 5 then
      addTxOutputs utxoPool (rh 0) [{ value := 50000000, scriptPubKey := p2pkhScript (rh 1) }]
    else utxoPool
  let poolCopy1 := candidateUTXOs rh utxoPool
  let chosen := pickLoop g poolCopy1.length 0 [] poolCopy1
  let txs := optionMapList
    (fun i => do
      let u ← chosen.get? (i % chosen.length)
      mkSpendTxWithId dsha u (ga i) (rh (3 + 2 * i)) (rh (4 + 2 * i)) (usecaseNote (i % 5)))
    (List.range 5)
  (txs, pool1)

/-- The `POST /api/mine` handler: draw a miner address, build the coinbase,
generate five spends, prepend the coinbase (every txid is already set, so
the `if (!t.txid)` fixup is a no-op), and mine the block.  Returns the
updated chain, the mined block, and the full transaction list. -/
def apiMine (dsha : List Nat → List Nat) (sha : String → String) (g ga : Nat → Nat)
    (rh : Nat → String) (bc : Blockchain) (ts : String) (fuel : Nat) :
    Option (Blockchain × Block × List Tx) :=
  let minerAddr := rh 100
  let coinbase := createCoinbaseTx minerAddr
  let gen := createFiveRandomTxs dsha g ga rh bc.utxo
  match gen.1 with
  | none => none
  | some txs =>
    let allTxs := coinbase :: txs
    match mineBlock dsha sha { bc with utxo := gen.2 } allTxs ts fuel with
    | none => none
    | some res => some (res.1, res.2, allTxs)

/-- JSON string literal (the hex strings and notes this server emits need
no escaping). -/
def jsonStr (s : String) : String :=
  "\"" ++ s ++ "\""

/-- `JSON.stringify` of an input object `{ txid, index }`. -/
def stringifyTxIn (i : TxIn) : String :=
  "\x7b\"txid\":" ++ jsonStr i.txid ++ ",\"index\":" ++ toString i.index ++ "\x7d"

/-- `JSON.stringify` of an output object `{ value, scriptPubKey }`. -/
def stringifyTxOut (o : TxOut) : String :=
  "\x7b\"value\":" ++ toString o.value ++ ",\"scriptPubKey\":" ++ jsonStr o.scriptPubKey ++ "\x7d"

/-- `JSON.stringify` of a transaction, with properties in assignment order;
optional properties appear only when set. -/
def stringifyTx (t : Tx) : String :=
  "\x7b\"version\":" ++ toString t.version ++
  ",\"inputs\":[" ++ String.intercalate "," (t.inputs.map stringifyTxIn) ++
  "],\"outputs\":[" ++ String.intercalate "," (t.outputs.map stringifyTxOut) ++
  "],\"locktime\":" ++ toString t.locktime ++
  (if t.txid == "" then "" else ",\"txid\":" ++ jsonStr t.txid) ++
  (match t.note with
   | none => ""
   | some n => ",\"note\":" ++ jsonStr n) ++
  (match t.fee with
   | none => ""
   | some f => ",\"fee\":" ++ toString f) ++
  (if t.isCoinbase then ",\"isCoinbase\":true" else "") ++
  "\x7d"

/-- `JSON.stringify` of a transaction list. -/
def stringifyTxs (ts : List Tx) : String :=
  "[" ++ String.intercalate "," (ts.map stringifyTx) ++ "]"

/-- The eight lines the `txt` branch of `GET /api/download` pushes per block. -/
def txtBlockLines (b : Block) : List String :=
  ["---",
   "Index: " ++ toString b.idx,
   "Timestamp: " ++ b.ts,
   "Previous Hash: " ++ b.prevHash,
   "Hash: " ++ b.hash,
   "MerkleRoot: " ++ b.merkleRoot,
   "Transactions: " ++ stringifyTxs b.transactions,
   "Nonce: " ++ toString b.nonce]

/-- The plain-text export: all block line groups joined with newlines. -/
def txtExport (chain : List Block) : String :=
  String.intercalate "\n" (chain.map txtBlockLines).flatten

/-- Lower-casing of a string (for the parser's case-insensitive label match). -/
def toLowerStr (s : String) : String :=
  String.mk (s.data.map toLowerChar)

/-- The parser's `getLine(label)`: first line matching
`/^label:\s*(.*)$/mi`, with the captured value trimmed. -/
def getLabelLine (lines : List String) (label : String) : Option String :=
  (lines.find? (fun l => jsStartsWith (toLowerStr l) (toLowerStr (label ++ ":")))).map
    (fun l => String.mk (jsTrimList (l.data.drop (label.length + 1))))

/-- JavaScript `a || b` on optional strings (an empty string is falsy). -/
def jsOrStr (a b : Option String) : Option String :=
  match a with
  | some s => if s == "" then b else some s
  | none => b

/-- An optional string as a record field value. -/
def optStrToJS : Option String → JSVal
  | none => .undef
  | some s => .vStr s

/-- A JavaScript number (possibly `NaN`) as a record field value. -/
def numToJS : Option Int → JSVal
  | none => .vNaN
  | some n => .vNum n

/-- One hyphen-delimited section of the plain-text fallback parser: extract
the labelled fields, skip the section when `Index` or `Nonce` is missing.
The `data` value may additionally be JSON-parsed by the source; the parsed
object is represented here by its source text, which the validator never
consults. -/
def parseTxtSection (s : String) : Option RawRecord :=
  let t := jsTrim s
  if t == "" then none
  else
    let lines := jsSplitOn t "\n"
    let idxStr := getLabelLine lines "Index"
    let ts := getLabelLine lines "Timestamp"
    let prevHash := getLabelLine lines "Previous Hash"
    let hash := getLabelLine lines "Hash"
    let dataStr := jsOrStr (getLabelLine lines "Data")
      (jsOrStr (getLabelLine lines "Transactions") (getLabelLine lines "MerkleRoot"))
    let nonceStr := getLabelLine lines "Nonce"
    match idxStr, nonceStr with
    | some is, some ns =>
      some { idx := numToJS (jsStrToNum is), ts := optStrToJS ts,
             prevHash := optStrToJS prevHash, hash := optStrToJS hash,
             data := optStrToJS dataStr, nonce := numToJS (jsStrToNum ns) }
    | _, _ => none

/-- The plain-text fallback of `parse`: split the upload on `\n---\n`
separators and collect the parseable sections.  (On a `txt` export the JSON
branch is not taken — the content starts with `-` — and the YAML attempt
either throws on multiple `---` documents or yields a document with no
`chain` property, so control always reaches this fallback.) -/
def parseTxt (raw : String) : List RawRecord :=
  ((jsSplitOn raw "\n---\n").map parseTxtSection).reduceOption

/-! Auxiliary definitions used by the statements and proofs below. -/

/-- Default diagnostic for positional lookups. -/
def dDet : Det :=
  ⟨none, false, false, false, false, false, false⟩

/-- Default block for positional lookups. -/
def dBlock : Block :=
  ⟨0, "", [], "", 0, "", ""⟩

/-- Default transaction for positional lookups. -/
def dTx : Tx :=
  { inputs := [], outputs := [] }

/-- Default output for positional lookups. -/
def dOut : TxOut :=
  ⟨0, ""⟩

/-- Default `apiMine` result for positional lookups. -/
def dRes : Blockchain × Block × List Tx :=
  (⟨0, [], []⟩, dBlock, [])

/-- The item preceding position `k` of a list (the `chain[i - 1]` access of
the validators), `prev` at position 0. -/
def prevAt (l : List α) (k : Nat) (prev : Option α) : Option α :=
  match k with
  | 0 => prev
  | Nat.succ k' => l[k']?

/-- The chain with block `k`'s stored nonce overwritten (no re-mining: the
stored hash and every other field are untouched). -/
def mutNonce (bc : Blockchain) (k : Nat) (n : Int) : Blockchain :=
  { bc with chain := bc.chain.set k { bc.chain.getD k dBlock with nonce := n } }

/-- An externally scriptable UTXO-pool operation. -/
inductive PoolOp where
  | add (txid : String) (outputs : List TxOut) : PoolOp
  | spendReq (txid : String) (index : Nat) : PoolOp
  | listReq : PoolOp
deriving DecidableEq, Repr

/-- Effect of one pool operation (`listAvailable` reads without mutating). -/
def runOp (p : Pool) : PoolOp → Pool
  | .add t outs => addTxOutputs p t outs
  | .spendReq t i => (spend p t i).2
  | .listReq => p

/-- Effect of a pool-operation sequence. -/
def runOps (p : Pool) (ops : List PoolOp) : Pool :=
  ops.foldl runOp p

/-- Whether one operation respects registration freshness against the
current pool (only `add` is constrained). -/
def freshOp (p : Pool) : PoolOp → Bool
  | .add t _ => !(p.any (fun kv => kv.1 == t))
  | _ => true

/-- Whether every registration in the sequence uses a txid that is not yet
a key of the pool at that moment (the discipline `callers must not register
twice`). -/
def freshRun (p : Pool) : List PoolOp → Bool
  | [] => true
  | op :: rest => freshOp p op && freshRun (runOp p op) rest

/-! Concrete witness data. -/

/-- A hash oracle making the one-block chain below a mined, fully valid
chain at difficulty 3. -/
def shaC1 : String → String := fun s =>
  if s == "0|t|0|" ++ String.mk (List.replicate 64 '0') ++ "|0" then "000abc" else "ffff"

/-- A mined genesis-style block (no transactions, hence the all-zero Merkle
root) whose stored hash meets difficulty 3 under `shaC1`. -/
def gBlockC1 : Block :=
  { idx := 0, prevHash := "0", transactions := [], ts := "t", nonce := 0,
    merkleRoot := String.mk (List.replicate 64 '0'), hash := "000abc" }

/-- A live chain holding just `gBlockC1` at difficulty 3. -/
def bcC1 : Blockchain :=
  { diff := 3, chain := [gBlockC1], utxo := [] }

/-- A transaction whose single output script is 256 bytes long (512 hex
characters), past the 255-byte capacity of the one-byte length field. -/
def bigScriptTx : Tx :=
  { inputs := [], outputs := [{ value := 1, scriptPubKey := String.mk (List.replicate 512 'a') }] }

/-- A hash oracle under which the two-block chain below is fully valid and
any nonce change to either block changes its recomputed hash. -/
def shaC2 : String → String := fun s =>
  if s == "0|t|0|m|0" then "h0" else if s == "1|t|h0|m|0" then "h1" else "zz"

/-- First block of the witness chain for the mutation scenario. -/
def blkW0 : Block :=
  { idx := 0, prevHash := "0", transactions := [], ts := "t", nonce := 0,
    merkleRoot := "m", hash := "h0" }

/-- Second block of the witness chain for the mutation scenario. -/
def blkW1 : Block :=
  { idx := 1, prevHash := "h0", transactions := [], ts := "t", nonce := 0,
    merkleRoot := "m", hash := "h1" }

/-- A two-block chain fully valid under `shaC2` at difficulty 0. -/
def bcC2 : Blockchain :=
  { diff := 0, chain := [blkW0, blkW1], utxo := [] }

/-- A trivially mineable block for the mining witness. -/
def blkMine : Block :=
  { idx := 0, prevHash := "0", transactions := [], ts := "t", nonce := 0,
    merkleRoot := "m", hash := "" }

/-- Constant hash oracle meeting difficulty 1 immediately. -/
def shaZero : String → String := fun _ => "0"

/-- A pool holding one registered entry under txid `"aa"`. -/
def poolW1 : Pool :=
  addTxOutputs [] "aa" [{ value := 7, scriptPubKey := "s" }]

/-- `poolW1` after its entry has been spent. -/
def poolW2 : Pool :=
  (spend poolW1 "aa" 0).2

/-- Constant double-hash oracle for the mining-round witness. -/
def dshaW : List Nat → List Nat := fun _ => List.replicate 32 0

/-- Constant hash oracle meeting difficulty 0 immediately. -/
def shaEmpty : String → String := fun _ => ""

/-- Constant random-number oracle. -/
def gZero : Nat → Nat := fun _ => 0

/-- Constant random-hex oracle (valid hex). -/
def rhW : Nat → String := fun _ => "ab"

/-- The assignment's seeded Alice UTXO pool. -/
def alicePool : Pool :=
  [("48437ddb190b006f858cdd881284ad467d68bfc4c74f3e6f621eb5af33be88d8",
    [{ index := 0, value := 100000000,
       scriptPubKey := "76a9141d0f172a0ecb48aee1be1f2687d2963ae33f71a188ac", spent := false }])]

/-- A one-block chain at difficulty 0 over the Alice pool, ready to mine. -/
def bcMineW : Blockchain :=
  { diff := 0,
    chain := [{ idx := 0, prevHash := "0", transactions := [], ts := "t", nonce := 0,
                merkleRoot := String.mk (List.replicate 64 '0'), hash := "" }],
    utxo := alicePool }

/-! Generic lemmas about the shared validation loop. -/

theorem valGoGen_dets_length (step : Option α → Bool → α → Det) :
    ∀ (l : List α) (prev : Option α) (cc : Bool),
      (valGoGen step prev cc l).dets.length = l.length := by
  intro l
  induction l with
  | nil => intro prev cc; rfl
  | cons b rest ih => intro prev cc; simp [valGoGen, ih]

theorem valGoGen_isValid_eq_all (step : Option α → Bool → α → Det) :
    ∀ (l : List α) (prev : Option α) (cc : Bool),
      (valGoGen step prev cc l).isValid =
        (valGoGen step prev cc l).dets.all (fun d => d.blkVal) := by
  intro l
  induction l with
  | nil => intro prev cc; rfl
  | cons b rest ih =>
    intro prev cc
    simp only [valGoGen, List.all_cons, ih]
    exact Bool.and_comm _ _

theorem valGoGen_invBlkIdx (step : Option α → Bool → α → Det) :
    ∀ (l : List α) (prev : Option α) (cc : Bool),
      (valGoGen step prev cc l).invBlkIdx =
        ((valGoGen step prev cc l).dets.filter (fun d => !d.blkVal)).map (fun d => d.idx) := by
  intro l
  induction l with
  | nil => intro prev cc; rfl
  | cons b rest ih =>
    intro prev cc
    simp only [valGoGen]
    cases hbv : (step prev cc b).blkVal <;>
      simp [List.filter_cons, hbv, ih]

theorem valGoGen_idx_map (step : Option α → Bool → α → Det) (f : α → Option Int)
    (hf : ∀ prev cc a, (step prev cc a).idx = f a) :
    ∀ (l : List α) (prev : Option α) (cc : Bool),
      (valGoGen step prev cc l).dets.map (fun d => d.idx) = l.map f := by
  intro l
  induction l with
  | nil => intro prev cc; rfl
  | cons b rest ih => intro prev cc; simp [valGoGen, ih, hf]

theorem valGoGen_take (step : Option α → Bool → α → Det) :
    ∀ (l : List α) (n : Nat) (prev : Option α) (cc : Bool),
      (valGoGen step prev cc l).dets.take n = (valGoGen step prev cc (l.take n)).dets := by
  intro l
  induction l with
  | nil => intro n prev cc; simp [valGoGen]
  | cons b rest ih =>
    intro n prev cc
    cases n with
    | zero => simp [valGoGen]
    | succ n' => simp [valGoGen, ih]

theorem prevAt_cons (b : α) (rest : List α) (k : Nat) (prev : Option α) :
    prevAt (b :: rest) (k + 1) prev = prevAt rest k (some b) := by
  cases k with
  | zero => simp [prevAt]
  | succ k' => simp [prevAt]

theorem valGoGen_det_at (step : Option α → Bool → α → Det) :
    ∀ (l : List α) (k : Nat) (d : Det) (a0 : α) (prev : Option α) (cc : Bool),
      k < l.length →
      (valGoGen step prev cc l).dets.getD k d =
        step (prevAt l k prev)
          (cc || !(valGoGen step prev cc (l.take k)).isValid)
          (l.getD k a0) := by
  intro l
  induction l with
  | nil => intro k d a0 prev cc hk; exact absurd hk (Nat.not_lt_zero k)
  | cons b rest ih =>
    intro k d a0 prev cc hk
    cases k with
    | zero => simp [valGoGen, prevAt]
    | succ k' =>
      have hk' : k' < rest.length := Nat.lt_of_succ_lt_succ hk
      have hL : (valGoGen step prev cc (b :: rest)).dets.getD (k' + 1) d =
          (valGoGen step (some b) (cc || !(step prev cc b).blkVal) rest).dets.getD k' d := by
        simp [valGoGen]
      rw [hL, ih k' d a0 (some b) (cc || !(step prev cc b).blkVal) hk', prevAt_cons]
      have hG : (b :: rest).getD (k' + 1) a0 = rest.getD k' a0 := rfl
      rw [hG]
      have hT : (valGoGen step prev cc ((b :: rest).take (k' + 1))).isValid =
          ((valGoGen step (some b) (cc || !(step prev cc b).blkVal) (rest.take k')).isValid
            && (step prev cc b).blkVal) := by
        simp [valGoGen]
      rw [hT]
      congr 1
      generalize (step prev cc b).blkVal = x
      generalize (valGoGen step (some b) (cc || !x) (rest.take k')).isValid = y
      cases cc <;> cases x <;> cases y <;> rfl

theorem valGoGen_cascade (step : Option α → Bool → α → Det)
    (hstep : ∀ (prev : Option α) (a : α),
      (step prev true a).blkVal = false ∧ (step prev true a).cc = true) :
    ∀ (l : List α) (prev : Option α) (cc : Bool) (i j : Nat) (d : Det) (a0 : α),
      i < j → j < l.length →
      ((valGoGen step prev cc l).dets.getD i d).blkVal = false →
      ((valGoGen step prev cc l).dets.getD j d).cc = true ∧
      ((valGoGen step prev cc l).dets.getD j d).blkVal = false := by
  intro l prev cc i j d a0 hij hj hi
  have hdetj := valGoGen_det_at step l j d a0 prev cc hj
  have hlen : (valGoGen step prev cc l).dets.length = l.length :=
    valGoGen_dets_length step l prev cc
  have htake : (valGoGen step prev cc l).dets.take j = (valGoGen step prev cc (l.take j)).dets :=
    valGoGen_take step l j prev cc
  have hiLen : i < (valGoGen step prev cc l).dets.length := by
    rw [hlen]; exact Nat.lt_trans hij hj
  have hmemi : (valGoGen step prev cc l).dets.getD i d ∈ (valGoGen step prev cc l).dets.take j := by
    have hgt : ((valGoGen step prev cc l).dets.take j)[i]? =
        (valGoGen step prev cc l).dets[i]? := List.getElem?_take_of_lt hij
    have hsome : (valGoGen step prev cc l).dets[i]? =
        some ((valGoGen step prev cc l).dets.getD i d) := by
      rw [List.getD_eq_getElem?_getD]
      rw [List.getElem?_eq_getElem hiLen]
      rfl
    exact List.getElem?_mem (by rw [hgt, hsome])
  have hallfalse : (valGoGen step prev cc (l.take j)).dets.all (fun x => x.blkVal) = false := by
    rw [← htake]
    refine List.all_eq_false.mpr ⟨_, hmemi, ?_⟩
    rw [List.getD_eq_getElem?_getD] at hi
    simp [hi]
  have hvalid : (valGoGen step prev cc (l.take j)).isValid = false := by
    rw [valGoGen_isValid_eq_all step (l.take j) prev cc]; exact hallfalse
  rw [hdetj, hvalid]
  simp only [Bool.not_false, Bool.or_true]
  exact ⟨(hstep _ _).2, (hstep _ _).1⟩

theorem valGoGen_isValid_all_getD (step : Option α → Bool → α → Det)
    (l : List α) (prev : Option α) (cc : Bool) (p : Nat) (d : Det)
    (hv : (valGoGen step prev cc l).isValid = true) (hp : p < l.length) :
    ((valGoGen step prev cc l).dets.getD p d).blkVal = true := by
  have hall := valGoGen_isValid_eq_all step l prev cc
  rw [hv] at hall
  have hlen := valGoGen_dets_length step l prev cc
  have hp' : p < (valGoGen step prev cc l).dets.length := by rw [hlen]; exact hp
  have hsome : (valGoGen step prev cc l).dets[p]? =
      some ((valGoGen step prev cc l).dets.getD p d) := by
    rw [List.getD_eq_getElem?_getD, List.getElem?_eq_getElem hp']; rfl
  have hmem := List.getElem?_mem hsome
  have := List.all_eq_true.mp hall.symm _ hmem
  simpa using this

/-! Facts about the two validators' per-item diagnostic bodies. -/

theorem liveDet_cc_true (sha : String → String) (t : String) (prev : Option Block) (b : Block) :
    (liveDet sha t prev true b).blkVal = false ∧ (liveDet sha t prev true b).cc = true := by
  simp [liveDet]

theorem rawDet_cc_true (sha : String → String) (t : String) (prev : Option RawRecord)
    (r : RawRecord) :
    (rawDet sha t prev true r).blkVal = false ∧ (rawDet sha t prev true r).cc = true := by
  simp [rawDet]

theorem liveDet_idx (sha : String → String) (t : String) (prev : Option Block) (cc : Bool)
    (b : Block) : (liveDet sha t prev cc b).idx = some b.idx := by
  simp [liveDet]

theorem rawDet_idx (sha : String → String) (t : String) (prev : Option RawRecord) (cc : Bool)
    (r : RawRecord) : (rawDet sha t prev cc r).idx = rawIdxOf r := by
  simp [rawDet, rawIdxOf]

theorem liveDet_blkVal_false_of_hash (sha : String → String) (t : String)
    (prev : Option Block) (cc : Bool) (b : Block) (h : sha (headerString b) ≠ b.hash) :
    (liveDet sha t prev cc b).blkVal = false := by
  have hbe : (sha (toString b.idx ++ "|" ++ b.ts ++ "|" ++ b.prevHash ++ "|" ++
      b.merkleRoot ++ "|" ++ toString b.nonce) == b.hash) = false := by
    apply beq_eq_false_iff_ne.mpr
    simpa [headerString] using h
  simp [liveDet, hbe]

theorem jsStartsWith_empty_zeros (d : Nat) (hd : 0 < d) :
    jsStartsWith "" (zeros d) = false := by
  cases d with
  | zero => exact absurd hd (Nat.lt_irrefl 0)
  | succ d' => simp [jsStartsWith, zeros, List.replicate, List.isPrefixOf]

theorem rawDet_empty_blkVal (sha : String → String) (d : Nat) (prev : Option RawRecord)
    (cc : Bool) (hd : 0 < d) :
    (rawDet sha (zeros d) prev cc emptyRaw).blkVal = false := by
  have hp := jsStartsWith_empty_zeros d hd
  simp [rawDet, emptyRaw, jsOr, jsToStr, hp]

/-- Claim C10: in both validators, `invBlkIdx` collects each failing
diagnostic's stored `idx` field — the coerced per-record index, not the
position in the sequence — so a corrupted `idx` is reported under the
corrupted value. -/
theorem claim10_invalid_indices_use_idx_field :
    (∀ (sha : String → String) (bc : Blockchain),
      (validateChain sha bc).invBlkIdx =
        ((validateChain sha bc).dets.filter (fun d => !d.blkVal)).map (fun d => d.idx) ∧
      (validateChain sha bc).dets.map (fun d => d.idx) = bc.chain.map (fun b => some b.idx)) ∧
    (∀ (sha : String → String) (chain : List RawRecord) (diff : Nat),
      (validChain sha chain diff).invBlkIdx =
        ((validChain sha chain diff).dets.filter (fun d => !d.blkVal)).map (fun d => d.idx) ∧
      (validChain sha chain diff).dets.map (fun d => d.idx) = chain.map rawIdxOf) := by
  constructor
  · intro sha bc
    simp only [validateChain, valGo]
    exact ⟨valGoGen_invBlkIdx _ bc.chain none false,
           valGoGen_idx_map _ (fun b => some b.idx)
             (fun p c a => liveDet_idx sha (zeros bc.diff) p c a) bc.chain none false⟩
  · intro sha chain diff
    simp only [validChain, valGoRaw]
    exact ⟨valGoGen_invBlkIdx _ chain none false,
           valGoGen_idx_map _ rawIdxOf
             (fun p c a => rawDet_idx sha (zeros diff) p c a) chain none false⟩

/-- Claim C7: the import-path validator is total — one diagnostic per
supplied record, whatever its fields — and a record with every field absent
gets the defaults (index `0`, empty strings), so it validates as `false`
at any positive difficulty instead of aborting the check. -/
theorem claim7_import_validator_total_with_defaults :
    ∀ (sha : String → String) (chain : List RawRecord) (diff : Nat),
      (validChain sha chain diff).dets.length = chain.length ∧
      (∀ i, i < chain.length → chain.getD i emptyRaw = emptyRaw → 0 < diff →
        ((validChain sha chain diff).dets.getD i dDet).idx = some 0 ∧
        ((validChain sha chain diff).dets.getD i dDet).blkVal = false) := by
  intro sha chain diff
  refine ⟨valGoGen_dets_length _ chain none false, ?_⟩
  intro i hi hempty hd
  have hdet := valGoGen_det_at (rawDet sha (zeros diff)) chain i dDet emptyRaw none false hi
  rw [hempty] at hdet
  constructor
  · show ((valGoGen (rawDet sha (zeros diff)) none false chain).dets.getD i dDet).idx = some 0
    rw [hdet, rawDet_idx]
    decide
  · show ((valGoGen (rawDet sha (zeros diff)) none false chain).dets.getD i dDet).blkVal = false
    rw [hdet]
    exact rawDet_empty_blkVal sha diff _ _ hd

/-- Witness for C7 at a concrete input: a one-record chain whose record has
every field absent yields a one-entry verdict whose diagnostic is invalid. -/
theorem claim7_witness :
    (validChain (fun _ => "x") [emptyRaw] 1).dets.length = 1 ∧
    ((validChain (fun _ => "x") [emptyRaw] 1).dets.getD 0 dDet).idx = some 0 ∧
    ((validChain (fun _ => "x") [emptyRaw] 1).dets.getD 0 dDet).blkVal = false :=
  ⟨(claim7_import_validator_total_with_defaults (fun _ => "x") [emptyRaw] 1).1,
   ((claim7_import_validator_total_with_defaults (fun _ => "x") [emptyRaw] 1).2 0
     (by decide) (by decide) (by decide)).1,
   ((claim7_import_validator_total_with_defaults (fun _ => "x") [emptyRaw] 1).2 0
     (by decide) (by decide) (by decide)).2⟩

/-- Claim C2: in both validators, once the diagnostic at some position is
invalid every strictly later diagnostic has `cc = true` and
`blkVal = false` (the flag never resets); and overwriting one stored
block's nonce without re-mining (so the recomputed header hash no longer
matches the stored hash) leaves all earlier blocks valid while that block
and every later one are invalid, with `cc = true` strictly after it. -/
theorem claim2_cascade_poisons_following_blocks :
    (∀ (sha : String → String) (bc : Blockchain) (i j : Nat),
      i < j → j < bc.chain.length →
      ((validateChain sha bc).dets.getD i dDet).blkVal = false →
      ((validateChain sha bc).dets.getD j dDet).cc = true ∧
      ((validateChain sha bc).dets.getD j dDet).blkVal = false) ∧
    (∀ (sha : String → String) (chain : List RawRecord) (diff : Nat) (i j : Nat),
      i < j → j < chain.length →
      ((validChain sha chain diff).dets.getD i dDet).blkVal = false →
      ((validChain sha chain diff).dets.getD j dDet).cc = true ∧
      ((validChain sha chain diff).dets.getD j dDet).blkVal = false) ∧
    (∀ (sha : String → String) (bc : Blockchain) (k : Nat) (n : Int),
      k < bc.chain.length →
      (validateChain sha bc).isValid = true →
      sha (headerString { bc.chain.getD k dBlock with nonce := n }) ≠
        (bc.chain.getD k dBlock).hash →
      (∀ p, p < k →
        ((validateChain sha (mutNonce bc k n)).dets.getD p dDet).blkVal = true) ∧
      (∀ p, k ≤ p → p < bc.chain.length →
        ((validateChain sha (mutNonce bc k n)).dets.getD p dDet).blkVal = false) ∧
      (∀ p, k < p → p < bc.chain.length →
        ((validateChain sha (mutNonce bc k n)).dets.getD p dDet).cc = true)) := by
  refine ⟨?_, ?_, ?_⟩
  · intro sha bc i j hij hj hfail
    exact valGoGen_cascade _ (fun prev a => liveDet_cc_true sha (zeros bc.diff) prev a)
      bc.chain none false i j dDet dBlock hij hj hfail
  · intro sha chain diff i j hij hj hfail
    exact valGoGen_cascade _ (fun prev a => rawDet_cc_true sha (zeros diff) prev a)
      chain none false i j dDet emptyRaw hij hj hfail
  · intro sha bc k n hk hvalid hhash
    have hlenm : (bc.chain.set k { bc.chain.getD k dBlock with nonce := n }).length =
        bc.chain.length := List.length_set bc.chain k _
    have hkm : k < (bc.chain.set k { bc.chain.getD k dBlock with nonce := n }).length := by
      rw [hlenm]; exact hk
    have hgetk : (bc.chain.set k { bc.chain.getD k dBlock with nonce := n }).getD k dBlock =
        { bc.chain.getD k dBlock with nonce := n } := by
      rw [List.getD_eq_getElem?_getD, List.getElem?_set_self hk]; rfl
    have hdetk := valGoGen_det_at (liveDet sha (zeros bc.diff))
      (bc.chain.set k { bc.chain.getD k dBlock with nonce := n }) k dDet dBlock none false hkm
    have hblkk : ((validateChain sha (mutNonce bc k n)).dets.getD k dDet).blkVal = false := by
      show ((valGoGen (liveDet sha (zeros bc.diff)) none false
        (bc.chain.set k { bc.chain.getD k dBlock with nonce := n })).dets.getD k dDet).blkVal =
          false
      rw [hdetk, hgetk]
      exact liveDet_blkVal_false_of_hash sha (zeros bc.diff) _ _ _ hhash
    refine ⟨?_, ?_, ?_⟩
    · intro p hp
      have hpc : p < bc.chain.length := Nat.lt_trans hp hk
      have hpm : p < (bc.chain.set k { bc.chain.getD k dBlock with nonce := n }).length := by
        rw [hlenm]; exact hpc
      have hdetp_m := valGoGen_det_at (liveDet sha (zeros bc.diff))
        (bc.chain.set k { bc.chain.getD k dBlock with nonce := n }) p dDet dBlock none false hpm
      have hdetp_c := valGoGen_det_at (liveDet sha (zeros bc.diff))
        bc.chain p dDet dBlock none false hpc
      have harg1 : prevAt (bc.chain.set k { bc.chain.getD k dBlock with nonce := n }) p none =
          prevAt bc.chain p none := by
        cases p with
        | zero => rfl
        | succ p' =>
          show (bc.chain.set k { bc.chain.getD k dBlock with nonce := n })[p']? = bc.chain[p']?
          exact List.getElem?_set_ne (Nat.ne_of_gt (Nat.lt_of_succ_lt hp))
      have harg2 : (bc.chain.set k { bc.chain.getD k dBlock with nonce := n }).take p =
          bc.chain.take p := by
        rw [List.set_take]
        apply List.set_eq_of_length_le
        calc (bc.chain.take p).length ≤ p := by
              rw [List.length_take]; exact Nat.min_le_left p bc.chain.length
          _ ≤ k := Nat.le_of_lt hp
      have harg3 : (bc.chain.set k { bc.chain.getD k dBlock with nonce := n }).getD p dBlock =
          bc.chain.getD p dBlock := by
        simp [List.getD_eq_getElem?_getD, List.getElem?_set_ne (Nat.ne_of_gt hp)]
      show ((valGoGen (liveDet sha (zeros bc.diff)) none false
        (bc.chain.set k { bc.chain.getD k dBlock with nonce := n })).dets.getD p dDet).blkVal =
          true
      rw [hdetp_m, harg1, harg2, harg3, ← hdetp_c]
      exact valGoGen_isValid_all_getD _ bc.chain none false p dDet hvalid hpc
    · intro p hkp hpc
      rcases Nat.eq_or_lt_of_le hkp with heq | hlt
      · rw [← heq]; exact hblkk
      · have hpm : p < (bc.chain.set k { bc.chain.getD k dBlock with nonce := n }).length := by
          rw [hlenm]; exact hpc
        exact (valGoGen_cascade _ (fun prev a => liveDet_cc_true sha (zeros bc.diff) prev a)
          (bc.chain.set k { bc.chain.getD k dBlock with nonce := n }) none false k p dDet dBlock
          hlt hpm hblkk).2
    · intro p hkp hpc
      have hpm : p < (bc.chain.set k { bc.chain.getD k dBlock with nonce := n }).length := by
        rw [hlenm]; exact hpc
      exact (valGoGen_cascade _ (fun prev a => liveDet_cc_true sha (zeros bc.diff) prev a)
        (bc.chain.set k { bc.chain.getD k dBlock with nonce := n }) none false k p dDet dBlock
        hkp hpm hblkk).1

/-- Witness for C2 at concrete inputs: a fully valid two-block chain whose
first block's nonce is overwritten becomes invalid from position 0 on, and
an invalid first diagnostic cascades in both validators. -/
theorem claim2_witness :
    (validateChain shaC2 bcC2).isValid = true ∧
    shaC2 (headerString { bcC2.chain.getD 0 dBlock with nonce := 5 }) ≠
      (bcC2.chain.getD 0 dBlock).hash ∧
    ((validateChain shaC2 (mutNonce bcC2 0 5)).dets.getD 0 dDet).blkVal = false ∧
    ((validateChain shaC2 (mutNonce bcC2 0 5)).dets.getD 1 dDet).blkVal = false ∧
    ((validateChain shaC2 (mutNonce bcC2 0 5)).dets.getD 1 dDet).cc = true ∧
    ((validChain (fun _ => "x") [emptyRaw, emptyRaw] 1).dets.getD 1 dDet).cc = true ∧
    ((validChain (fun _ => "x") [emptyRaw, emptyRaw] 1).dets.getD 1 dDet).blkVal = false :=
  ⟨by decide, by decide,
   (claim2_cascade_poisons_following_blocks.2.2 shaC2 bcC2 0 5
     (by decide) (by decide) (by decide)).2.1 0 (by decide) (by decide),
   (claim2_cascade_poisons_following_blocks.2.2 shaC2 bcC2 0 5
     (by decide) (by decide) (by decide)).2.1 1 (by decide) (by decide),
   (claim2_cascade_poisons_following_blocks.2.2 shaC2 bcC2 0 5
     (by decide) (by decide) (by decide)).2.2 1 (by decide) (by decide),
   (claim2_cascade_poisons_following_blocks.2.1 (fun _ => "x") [emptyRaw, emptyRaw] 1 0 1
     (by decide) (by decide) (by decide)).1,
   (claim2_cascade_poisons_following_blocks.2.1 (fun _ => "x") [emptyRaw, emptyRaw] 1 0 1
     (by decide) (by decide) (by decide)).2⟩

/-! Mining lemmas. -/

theorem replicate_zero_prefix_le :
    ∀ (d : Nat) (l : List Char), (List.replicate d '0').isPrefixOf l = true →
      d ≤ leadingZerosList l := by
  intro d
  induction d with
  | zero => intro l h; exact Nat.zero_le _
  | succ d' ih =>
    intro l h
    cases l with
    | nil => simp [List.replicate, List.isPrefixOf] at h
    | cons c rest =>
      rw [List.replicate_succ] at h
      simp only [List.isPrefixOf, Bool.and_eq_true, beq_iff_eq] at h
      obtain ⟨hc, hrest⟩ := h
      subst hc
      have : leadingZerosList ('0' :: rest) = leadingZerosList rest + 1 := by
        simp [leadingZerosList]
      rw [this]
      exact Nat.succ_le_succ (ih rest hrest)

theorem liveDet_isPowVal (sha : String → String) (t : String) (prev : Option Block) (cc : Bool)
    (b : Block) : (liveDet sha t prev cc b).isPowVal = jsStartsWith b.hash t := by
  simp [liveDet]

theorem mineHeaderFuel_spec (sha : String → String) (diff : Nat) :
    ∀ (fuel : Nat) (b b' : Block),
      mineHeaderFuel sha diff b fuel = some b' →
      b'.hash = sha (headerString b') ∧
      jsStartsWith b'.hash (zeros diff) = true ∧
      b'.idx = b.idx ∧ b'.ts = b.ts ∧ b'.prevHash = b.prevHash ∧
      b'.merkleRoot = b.merkleRoot ∧ b'.transactions = b.transactions ∧
      b.nonce ≤ b'.nonce := by
  intro fuel
  induction fuel with
  | zero => intro b b' h; exact absurd h (by simp [mineHeaderFuel])
  | succ f ih =>
    intro b b' h
    rw [mineHeaderFuel] at h
    cases hc : jsStartsWith (computeHeaderHash sha b) (zeros diff) with
    | true =>
      rw [hc] at h
      simp only [if_pos rfl] at h
      cases h
      refine ⟨?_, hc, rfl, rfl, rfl, rfl, rfl, le_refl _⟩
      rfl
    | false =>
      rw [hc] at h
      simp only [Bool.false_eq_true, if_neg] at h
      have hrec := ih { b with hash := computeHeaderHash sha b, nonce := b.nonce + 1 } b' h
      refine ⟨hrec.1, hrec.2.1, hrec.2.2.1, hrec.2.2.2.1, hrec.2.2.2.2.1,
        hrec.2.2.2.2.2.1, hrec.2.2.2.2.2.2.1, ?_⟩
      have h9 : b.nonce + 1 ≤ b'.nonce := hrec.2.2.2.2.2.2.2
      omega

/-- Claim C3: whenever the fuelled mining search returns a block, that
block's stored hash is the single SHA-256 of its pipe-joined header string,
it starts with `diff` zero characters (so it has at least `diff` leading
zero hex characters), all header fields other than the nonce are the ones
the search started from, and the Chain Validator's `isPowVal` check on the
mined block is true at the same difficulty. -/
theorem claim3_mining_meets_difficulty :
    ∀ (sha : String → String) (diff : Nat) (b : Block) (fuel : Nat) (b' : Block),
      mineHeaderFuel sha diff b fuel = some b' →
      b'.hash = sha (headerString b') ∧
      jsStartsWith b'.hash (zeros diff) = true ∧
      diff ≤ leadingZeroCount b'.hash ∧
      b'.idx = b.idx ∧ b'.ts = b.ts ∧ b'.prevHash = b.prevHash ∧
      b'.merkleRoot = b.merkleRoot ∧ b'.transactions = b.transactions ∧
      b.nonce ≤ b'.nonce ∧
      (∀ (prev : Option Block) (cc : Bool),
        (liveDet sha (zeros diff) prev cc b').isPowVal = true) ∧
      ((validateChain sha ⟨diff, [b'], []⟩).dets.getD 0 dDet).isPowVal = true := by
  intro sha diff b fuel b' h
  have hs := mineHeaderFuel_spec sha diff fuel b b' h
  have hlead : diff ≤ leadingZeroCount b'.hash := by
    have hpre : (List.replicate diff '0').isPrefixOf b'.hash.data = true := hs.2.1
    exact replicate_zero_prefix_le diff b'.hash.data hpre
  have hpow : ∀ (prev : Option Block) (cc : Bool),
      (liveDet sha (zeros diff) prev cc b').isPowVal = true := by
    intro prev cc
    rw [liveDet_isPowVal]
    exact hs.2.1
  refine ⟨hs.1, hs.2.1, hlead, hs.2.2.1, hs.2.2.2.1, hs.2.2.2.2.1, hs.2.2.2.2.2.1,
    hs.2.2.2.2.2.2.1, hs.2.2.2.2.2.2.2, hpow, ?_⟩
  show ((valGoGen (liveDet sha (zeros diff)) none false [b']).dets.getD 0 dDet).isPowVal = true
  simp only [valGoGen, List.getD_cons_zero]
  exact hpow none false

/-- Witness for C3 at a concrete input: one mining step at difficulty 1
under a constant oracle returning `"0"` succeeds and meets the target. -/
theorem claim3_witness :
    mineHeaderFuel shaZero 1 blkMine 1 =
      some ((mineHeaderFuel shaZero 1 blkMine 1).getD dBlock) ∧
    1 ≤ leadingZeroCount ((mineHeaderFuel shaZero 1 blkMine 1).getD dBlock).hash ∧
    ((validateChain shaZero
      ⟨1, [(mineHeaderFuel shaZero 1 blkMine 1).getD dBlock], []⟩).dets.getD 0 dDet).isPowVal =
      true :=
  ⟨by decide,
   (claim3_mining_meets_difficulty shaZero 1 blkMine 1 _ (by decide)).2.2.1,
   (claim3_mining_meets_difficulty shaZero 1 blkMine 1 _
     (by decide)).2.2.2.2.2.2.2.2.2.2⟩

/-- Claim C1 is violated by the plain-text round trip: for a mined one-block
chain that the live validator accepts, the `txt` parser drops the Merkle
root (it only reads the `MerkleRoot:` line as a `data` fallback), so the
import-path validator recomputes the header hash over an empty Merkle field
and reports the whole chain invalid — the two verdicts differ. -/
theorem claim1_txt_roundtrip_diverges :
    (validateChain shaC1 bcC1).isValid = true ∧
    (parseTxt (txtExport bcC1.chain)).map (fun r => r.merkleRoot) = [JSVal.undef] ∧
    (validChain shaC1 (parseTxt (txtExport bcC1.chain)) bcC1.diff).isValid = false ∧
    validChain shaC1 (parseTxt (txtExport bcC1.chain)) bcC1.diff ≠ validateChain shaC1 bcC1 :=
  ⟨by decide, by decide, by decide, by decide⟩

/-- Claim C4 as stated is false: the coinbase sentinel literal in the
source is not 66 hexadecimal characters long. -/
theorem claim4_sentinel_length_not_66 : coinbaseSentinel.length ≠ 66 := by
  decide

theorem foldl_skip_sentinel :
    ∀ (l : List TxIn) (pool : Pool), (∀ i ∈ l, i.txid = coinbaseSentinel) →
      l.foldl (fun p inp => if inp.txid == coinbaseSentinel then p
        else (spend p inp.txid inp.index).2) pool = pool := by
  intro l
  induction l with
  | nil => intro pool h; rfl
  | cons i rest ih =>
    intro pool h
    have hi : i.txid = coinbaseSentinel := h i (List.mem_cons_self i rest)
    rw [List.foldl_cons]
    have hbeq : (i.txid == coinbaseSentinel) = true := beq_iff_eq.mpr hi
    rw [hbeq]
    simp only [if_true]
    exact ih pool (fun x hx => h x (List.mem_cons_of_mem i hx))

/-- Amended C4: the coinbase sentinel literal is 64 hexadecimal characters
(32 bytes) — the same length as every derived identifier — and it is indeed
the coinbase input's previous-txid, the forced coinbase identifier, and the
skip test of the per-transaction block application (a transaction all of
whose inputs bear the sentinel spends nothing and only registers outputs). -/
theorem claim4_sentinel_is_64_hex_chars :
    coinbaseSentinel.length = 64 ∧
    (∀ h : String, (createCoinbaseTx h).txid = coinbaseSentinel ∧
      (createCoinbaseTx h).inputs = [{ txid := coinbaseSentinel, index := 4294967295 }] ∧
      (createCoinbaseTx h).isCoinbase = true) ∧
    (∀ (pool : Pool) (tx : Tx), (∀ i ∈ tx.inputs, i.txid = coinbaseSentinel) →
      applyTxToPool pool tx = addTxOutputs pool tx.txid tx.outputs) := by
  refine ⟨by decide, ?_, ?_⟩
  · intro h
    exact ⟨rfl, rfl, rfl⟩
  · intro pool tx hall
    unfold applyTxToPool
    rw [foldl_skip_sentinel tx.inputs pool hall]

/-- Witness for the amended C4 at a concrete input: the coinbase of a
concrete miner address carries the sentinel and its application to a
concrete pool only registers its outputs. -/
theorem claim4_witness :
    (createCoinbaseTx "ab").txid = coinbaseSentinel ∧
    applyTxToPool poolW1 (createCoinbaseTx "ab") =
      addTxOutputs poolW1 (createCoinbaseTx "ab").txid (createCoinbaseTx "ab").outputs :=
  ⟨(claim4_sentinel_is_64_hex_chars.2.1 "ab").1,
   claim4_sentinel_is_64_hex_chars.2.2 poolW1 (createCoinbaseTx "ab") (by decide)⟩

/-- Claim C5 as stated is false: an output script of 256 bytes — past the
255-byte capacity of the one-byte length field — does not make the codec
fail; the encoding succeeds (the length byte is truncated modulo 256). -/
theorem claim5_oversized_script_still_encodes :
    255 < (hexDecodeStr (bigScriptTx.outputs.getD 0 dOut).scriptPubKey).length ∧
    (createTxHex bigScriptTx).isSome = true :=
  ⟨by decide, by decide⟩

theorem u32le_some (n : Nat) (h : n < 4294967296) : u32le n = some (natLEBytes n 4) := by
  simp [u32le, h]

theorem u64le_some (v : Int) (h0 : 0 ≤ v) (h1 : v < 18446744073709551616) :
    u64le v = some (natLEBytes v.toNat 8) := by
  simp [u64le, h0, h1]

theorem encInputs_isSome :
    ∀ l : List TxIn,
      (∀ i ∈ l, i.index < 4294967296 ∧ i.sequence.getD 4294967295 < 4294967296) →
      (encInputs l).isSome = true := by
  intro l
  induction l with
  | nil => intro h; rfl
  | cons i rest ih =>
    intro h
    obtain ⟨h1, h2⟩ := h i (List.mem_cons_self i rest)
    have hrest := ih (fun x hx => h x (List.mem_cons_of_mem i hx))
    obtain ⟨tl, htl⟩ := Option.isSome_iff_exists.mp hrest
    simp [encInputs, encInput, u32le_some _ h1, u32le_some _ h2, htl]

theorem encOutputs_isSome :
    ∀ l : List TxOut, (∀ o ∈ l, 0 ≤ o.value ∧ o.value < 18446744073709551616) →
      (encOutputs l).isSome = true := by
  intro l
  induction l with
  | nil => intro h; rfl
  | cons o rest ih =>
    intro h
    obtain ⟨h1, h2⟩ := h o (List.mem_cons_self o rest)
    have hrest := ih (fun x hx => h x (List.mem_cons_of_mem o hx))
    obtain ⟨tl, htl⟩ := Option.isSome_iff_exists.mp hrest
    simp [encOutputs, encOutput, u64le_some _ h1 h2, htl]

/-- Amended C5: the codec is a total pure function of the transaction's
fields as long as every numeric field fits its fixed-width slot; oversized
scripts and oversized input/output counts never cause a failure (their
single-byte fields are truncated modulo 256 by the serializer). -/
theorem claim5_codec_total_without_overflow_error :
    ∀ tx : Tx,
      tx.version < 4294967296 → tx.locktime < 4294967296 →
      (∀ i ∈ tx.inputs, i.index < 4294967296 ∧ i.sequence.getD 4294967295 < 4294967296) →
      (∀ o ∈ tx.outputs, 0 ≤ o.value ∧ o.value < 18446744073709551616) →
      (createTxHex tx).isSome = true := by
  intro tx hv hl hins houts
  obtain ⟨ins, hins'⟩ := Option.isSome_iff_exists.mp (encInputs_isSome tx.inputs hins)
  obtain ⟨outs, houts'⟩ := Option.isSome_iff_exists.mp (encOutputs_isSome tx.outputs houts)
  simp [createTxHex, createTxBytes, u32le_some _ hv, u32le_some _ hl, hins', houts']

/-- Witness for the amended C5 at a concrete input: the 256-byte-script
transaction satisfies the numeric-range conditions and encodes. -/
theorem claim5_witness :
    bigScriptTx.version < 4294967296 ∧
    (∀ o ∈ bigScriptTx.outputs, 0 ≤ o.value ∧ o.value < 18446744073709551616) ∧
    (createTxHex bigScriptTx).isSome = true :=
  ⟨by decide, by decide,
   claim5_codec_total_without_overflow_error bigScriptTx (by decide) (by decide)
     (by decide) (by decide)⟩

/-! UTXO-pool lemmas. -/

theorem spendEntries_none_iff (outs : List PoolEntry) (i : Nat) :
    spendEntries outs i = none ↔
      (outs.find? (fun o => o.index == i) = none ∨
       ∃ e, outs.find? (fun o => o.index == i) = some e ∧ e.spent = true) := by
  induction outs with
  | nil => simp [spendEntries]
  | cons o rest ih =>
    cases hoi : (o.index == i) with
    | true =>
      cases hs : o.spent with
      | true => simp [spendEntries, List.find?, hoi, hs]
      | false => simp [spendEntries, List.find?, hoi, hs]
    | false =>
      simp [spendEntries, List.find?, hoi, Option.map_eq_none', ih]

theorem spendEntries_some_find (outs : List PoolEntry) (i : Nat) :
    ∀ (outs' : List PoolEntry), spendEntries outs i = some outs' →
      ∃ e, outs.find? (fun o => o.index == i) = some e ∧ e.spent = false ∧
        outs'.find? (fun o => o.index == i) = some { e with spent := true } := by
  induction outs with
  | nil => intro outs' h; simp [spendEntries] at h
  | cons o rest ih =>
    intro outs' h
    cases hoi : (o.index == i) with
    | true =>
      cases hs : o.spent with
      | true => simp [spendEntries, hoi, hs] at h
      | false =>
        simp only [spendEntries, hoi, hs, if_true, if_false, Bool.false_eq_true] at h
        cases h
        exact ⟨o, by simp [List.find?, hoi], hs, by simp [List.find?, hoi]⟩
    | false =>
      simp only [spendEntries, hoi, Bool.false_eq_true, if_false, Option.map_eq_some'] at h
      obtain ⟨rest', hrest, heq⟩ := h
      obtain ⟨e, hfind, hsp, hfind'⟩ := ih rest' hrest
      subst heq
      exact ⟨e, by simp [List.find?, hoi, hfind], hsp, by simp [List.find?, hoi, hfind']⟩

theorem spendEntries_preserve (outs : List PoolEntry) (i : Nat) :
    ∀ (outs' : List PoolEntry), spendEntries outs i = some outs' →
      ∀ (j : Nat) (e : PoolEntry), outs.find? (fun o => o.index == j) = some e →
        ∃ e', outs'.find? (fun o => o.index == j) = some e' ∧
          e'.index = e.index ∧ e'.value = e.value ∧ e'.scriptPubKey = e.scriptPubKey ∧
          (e.spent = true → e'.spent = true) := by
  induction outs with
  | nil => intro outs' h; simp [spendEntries] at h
  | cons o rest ih =>
    intro outs' h j e hfind
    cases hoi : (o.index == i) with
    | true =>
      cases hs : o.spent with
      | true => simp [spendEntries, hoi, hs] at h
      | false =>
        simp only [spendEntries, hoi, hs, if_true, if_false, Bool.false_eq_true] at h
        cases h
        cases hoj : (o.index == j) with
        | true =>
          rw [List.find?_cons_of_pos rest hoj] at hfind
          cases hfind
          refine ⟨{ o with spent := true }, ?_, rfl, rfl, rfl, fun _ => rfl⟩
          exact List.find?_cons_of_pos rest hoj
        | false =>
          rw [List.find?_cons_of_neg rest (by simp [hoj])] at hfind
          refine ⟨e, ?_, rfl, rfl, rfl, fun hh => hh⟩
          rw [List.find?_cons_of_neg rest (by simp [hoj])]
          exact hfind
    | false =>
      simp only [spendEntries, hoi, Bool.false_eq_true, if_false, Option.map_eq_some'] at h
      obtain ⟨rest', hrest, heq⟩ := h
      subst heq
      cases hoj : (o.index == j) with
      | true =>
        rw [List.find?_cons_of_pos rest hoj] at hfind
        cases hfind
        exact ⟨o, List.find?_cons_of_pos rest' hoj, rfl, rfl, rfl, fun hh => hh⟩
      | false =>
        rw [List.find?_cons_of_neg rest (by simp [hoj])] at hfind
        obtain ⟨e', he', q1, q2, q3, q4⟩ := ih rest' hrest j e hfind
        refine ⟨e', ?_, q1, q2, q3, q4⟩
        rw [List.find?_cons_of_neg rest' (by simp [hoj])]
        exact he'

theorem poolGet_map_set_self (t : String) (v : List PoolEntry) :
    ∀ (p : Pool), p.any (fun kv => kv.1 == t) = true →
      poolGet (p.map (fun kv => if kv.1 == t then (kv.1, v) else kv)) t = some v := by
  intro p
  induction p with
  | nil => intro h; simp at h
  | cons kv rest ih =>
    intro h
    cases hkv : (kv.1 == t) with
    | true => simp [poolGet, List.find?, hkv]
    | false =>
      have hrest : rest.any (fun kv => kv.1 == t) = true := by
        rw [List.any_cons, hkv] at h
        simpa using h
      have := ih hrest
      simpa [poolGet, List.find?, hkv] using this

theorem poolGet_poolSet_self (p : Pool) (t : String) (v : List PoolEntry) :
    poolGet (poolSet p t v) t = some v := by
  unfold poolSet
  cases hany : p.any (fun kv => kv.1 == t) with
  | true =>
    have := poolGet_map_set_self t v p hany
    simpa using this
  | false =>
    have hnone : p.find? (fun kv => kv.1 == t) = none :=
      List.find?_eq_none.mpr (by simpa using List.any_eq_false.mp hany)
    simp [poolGet, List.find?_append, hnone, List.find?]

theorem poolGet_map_set_ne (t t' : String) (v : List PoolEntry) (h : t' ≠ t) :
    ∀ (p : Pool),
      poolGet (p.map (fun kv => if kv.1 == t' then (kv.1, v) else kv)) t = poolGet p t := by
  intro p
  induction p with
  | nil => rfl
  | cons kv rest ih =>
    cases hkv : (kv.1 == t') with
    | true =>
      have hne : (kv.1 == t) = false := by
        have : kv.1 = t' := beq_iff_eq.mp hkv
        subst this
        exact beq_eq_false_iff_ne.mpr h
      simpa [poolGet, List.find?, hkv, hne] using ih
    | false =>
      cases hkt : (kv.1 == t) with
      | true => simp [poolGet, List.find?, hkv, hkt]
      | false => simpa [poolGet, List.find?, hkv, hkt] using ih

theorem poolGet_poolSet_ne (p : Pool) (t t' : String) (v : List PoolEntry) (h : t' ≠ t) :
    poolGet (poolSet p t' v) t = poolGet p t := by
  unfold poolSet
  cases hany : p.any (fun kv => kv.1 == t') with
  | true =>
    have := poolGet_map_set_ne t t' v h p
    simpa using this
  | false =>
    have hsingle : List.find? (fun kv => kv.1 == t) [(t', v)] = none := by
      simp [List.find?, beq_eq_false_iff_ne.mpr h]
    simp [poolGet, List.find?_append, hsingle]

theorem poolGet_some_any (p : Pool) (t : String) (v : List PoolEntry)
    (h : poolGet p t = some v) : p.any (fun kv => kv.1 == t) = true := by
  unfold poolGet at h
  cases hf : p.find? (fun kv => kv.1 == t) with
  | none => rw [hf] at h; cases h
  | some kv =>
    exact List.any_eq_true.mpr
      ⟨kv, List.mem_of_find?_eq_some hf,
       List.find?_some (p := fun kv : String × List PoolEntry => kv.1 == t) hf⟩

/-- Claim C6: `spend` succeeds exactly when the addressed entry exists and
is currently unspent; on failure it returns `false` and leaves the pool
untouched; on success it flips exactly that entry's `spent` flag to `true`,
so an immediate second `spend` of the same entry returns `false`. -/
theorem claim6_spend_success_iff_unspent :
    ∀ (p : Pool) (txid : String) (i : Nat),
      ((spend p txid i).1 = true ↔ ∃ e, findEntry p txid i = some e ∧ e.spent = false) ∧
      ((spend p txid i).1 = false → (spend p txid i).2 = p) ∧
      (∀ e, findEntry p txid i = some e → e.spent = false →
        (spend p txid i).1 = true ∧
        findEntry (spend p txid i).2 txid i = some { e with spent := true } ∧
        (spend (spend p txid i).2 txid i).1 = false) := by
  intro p txid i
  cases hget : poolGet p txid with
  | none =>
    have hsp : spend p txid i = (false, p) := by simp [spend, hget]
    have hfe : findEntry p txid i = none := by simp [findEntry, hget]
    rw [hsp, hfe]
    refine ⟨?_, fun _ => rfl, ?_⟩
    · constructor
      · intro habs; simp at habs
      · rintro ⟨e, he, _⟩; cases he
    · intro e he; cases he
  | some outs =>
    have hfe : findEntry p txid i = outs.find? (fun o => o.index == i) := by
      simp [findEntry, hget]
    cases hse : spendEntries outs i with
    | none =>
      have hsp : spend p txid i = (false, p) := by simp [spend, hget, hse]
      have hiff := (spendEntries_none_iff outs i).mp hse
      rw [hsp, hfe]
      refine ⟨?_, fun _ => rfl, ?_⟩
      · constructor
        · intro habs; simp at habs
        · rintro ⟨e, he, hspe⟩
          rcases hiff with hn | ⟨e0, he0, hs0⟩
          · rw [hn] at he; cases he
          · rw [he0] at he
            injection he with heq
            subst heq
            rw [hspe] at hs0
            simp at hs0
      · intro e he hspe
        rcases hiff with hn | ⟨e0, he0, hs0⟩
        · rw [hn] at he; cases he
        · rw [he0] at he
          injection he with heq
          subst heq
          rw [hspe] at hs0
          simp at hs0
    | some outs' =>
      obtain ⟨e0, hfind0, hsp0, hfind'⟩ := spendEntries_some_find outs i outs' hse
      have hsp : spend p txid i = (true, poolSet p txid outs') := by simp [spend, hget, hse]
      refine ⟨?_, ?_, ?_⟩
      · rw [hsp, hfe]
        exact ⟨fun _ => ⟨e0, hfind0, hsp0⟩, fun _ => rfl⟩
      · rw [hsp]; intro habs; simp at habs
      · intro e he hspe
        rw [hfe, hfind0] at he
        injection he with heq
        subst heq
        have hfe2 : findEntry (poolSet p txid outs') txid i =
            outs'.find? (fun o => o.index == i) := by
          simp [findEntry, poolGet_poolSet_self]
        refine ⟨by rw [hsp], ?_, ?_⟩
        · rw [hsp]
          show findEntry (poolSet p txid outs') txid i = _
          rw [hfe2]
          exact hfind'
        · rw [hsp]
          show (spend (poolSet p txid outs') txid i).1 = false
          have hget2 : poolGet (poolSet p txid outs') txid = some outs' :=
            poolGet_poolSet_self p txid outs'
          have hse2 : spendEntries outs' i = none :=
            (spendEntries_none_iff outs' i).mpr (Or.inr ⟨_, hfind', rfl⟩)
          simp [spend, hget2, hse2]

/-- Witness for C6 at a concrete input: the registered entry of `poolW1`
spends once and only once. -/
theorem claim6_witness :
    ((spend poolW1 "aa" 0).1 = true ↔
      ∃ e, findEntry poolW1 "aa" 0 = some e ∧ e.spent = false) ∧
    ((spend poolW1 "aa" 0).1 = false → (spend poolW1 "aa" 0).2 = poolW1) ∧
    (∀ e, findEntry poolW1 "aa" 0 = some e → e.spent = false →
      (spend poolW1 "aa" 0).1 = true ∧
      findEntry (spend poolW1 "aa" 0).2 "aa" 0 = some { e with spent := true } ∧
      (spend (spend poolW1 "aa" 0).2 "aa" 0).1 = false) :=
  claim6_spend_success_iff_unspent poolW1 "aa" 0

/-- Claim C8 as stated is false: registering the same txid twice is a pool
operation sequence that resets a spent flag — `addTxOutputs` overwrites the
existing entry list with fresh `spent = false` entries. -/
theorem claim8_reregistration_resets_spent_flag :
    findEntry poolW2 "aa" 0 =
      some { index := 0, value := 7, scriptPubKey := "s", spent := true } ∧
    findEntry (addTxOutputs poolW2 "aa" [{ value := 7, scriptPubKey := "s" }]) "aa" 0 =
      some { index := 0, value := 7, scriptPubKey := "s", spent := false } :=
  ⟨by decide, by decide⟩

/-- Amended C8: as long as every registration uses a fresh txid (the
discipline the spec demands of callers), no operation sequence removes a
registered entry, changes its index, value or script, or resets its spent
flag — `spend` only ever flips `false → true` and `listAvailable` reads
without mutating. -/
theorem claim8_pool_grows_under_fresh_registration :
    ∀ (ops : List PoolOp) (p : Pool) (t : String) (i : Nat) (e : PoolEntry),
      freshRun p ops = true → findEntry p t i = some e →
      ∃ e', findEntry (runOps p ops) t i = some e' ∧
        e'.index = e.index ∧ e'.value = e.value ∧ e'.scriptPubKey = e.scriptPubKey ∧
        (e.spent = true → e'.spent = true) := by
  intro ops
  induction ops with
  | nil =>
    intro p t i e hf he
    exact ⟨e, he, rfl, rfl, rfl, fun hh => hh⟩
  | cons op rest ih =>
    intro p t i e hf he
    rw [freshRun, Bool.and_eq_true] at hf
    have hfr : freshRun (runOp p op) rest = true := hf.2
    have hstep : ∃ e1, findEntry (runOp p op) t i = some e1 ∧
        e1.index = e.index ∧ e1.value = e.value ∧ e1.scriptPubKey = e.scriptPubKey ∧
        (e.spent = true → e1.spent = true) := by
      cases op with
      | add t' outs =>
        have hfresh : p.any (fun kv => kv.1 == t') = false := by
          have := hf.1
          rw [freshOp] at this
          simp only [Bool.not_eq_true'] at this
          exact this
        have hkey : t ≠ t' := by
          intro heq
          subst heq
          unfold findEntry at he
          cases hpg : poolGet p t with
          | none => rw [hpg] at he; cases he
          | some v =>
            have := poolGet_some_any p t v hpg
            rw [hfresh] at this
            cases this
        have hpres : findEntry (addTxOutputs p t' outs) t i = findEntry p t i := by
          unfold findEntry addTxOutputs
          rw [poolGet_poolSet_ne p t t' _ (Ne.symm hkey)]
        exact ⟨e, by rw [runOp, hpres]; exact he, rfl, rfl, rfl, fun hh => hh⟩
      | spendReq t' i' =>
        show ∃ e1, findEntry (spend p t' i').2 t i = some e1 ∧ _
        cases hpg : poolGet p t' with
        | none =>
          have hsp : spend p t' i' = (false, p) := by simp [spend, hpg]
          rw [hsp]
          exact ⟨e, he, rfl, rfl, rfl, fun hh => hh⟩
        | some outs =>
          cases hse : spendEntries outs i' with
          | none =>
            have hsp : spend p t' i' = (false, p) := by simp [spend, hpg, hse]
            rw [hsp]
            exact ⟨e, he, rfl, rfl, rfl, fun hh => hh⟩
          | some outs' =>
            have hsp : spend p t' i' = (true, poolSet p t' outs') := by
              simp [spend, hpg, hse]
            rw [hsp]
            by_cases ht : t = t'
            · subst ht
              have he' : outs.find? (fun o => o.index == i) = some e := by
                unfold findEntry at he
                rw [hpg] at he
                simpa using he
              obtain ⟨e1, h1, h2, h3, h4, h5⟩ := spendEntries_preserve outs i' outs' hse i e he'
              refine ⟨e1, ?_, h2, h3, h4, h5⟩
              show findEntry (poolSet p t outs') t i = some e1
              unfold findEntry
              rw [poolGet_poolSet_self]
              simpa using h1
            · refine ⟨e, ?_, rfl, rfl, rfl, fun hh => hh⟩
              show findEntry (poolSet p t' outs') t i = some e
              unfold findEntry
              rw [poolGet_poolSet_ne p t t' _ (Ne.symm ht)]
              exact he
      | listReq =>
        exact ⟨e, he, rfl, rfl, rfl, fun hh => hh⟩
    obtain ⟨e1, he1, p1, p2, p3, p4⟩ := hstep
    obtain ⟨e', he', q1, q2, q3, q4⟩ := ih (runOp p op) t i e1 hfr he1
    exact ⟨e', he', by rw [q1, p1], by rw [q2, p2], by rw [q3, p3], fun hh => q4 (p4 hh)⟩

/-- Witness for the amended C8 at a concrete input: a fresh registration
followed by a spend of another txid and a read preserves `poolW1`'s entry. -/
theorem claim8_witness :
    freshRun poolW1 [.add "bb" [{ value := 3, scriptPubKey := "q" }], .spendReq "bb" 0,
      .listReq] = true ∧
    findEntry poolW1 "aa" 0 = some { index := 0, value := 7, scriptPubKey := "s", spent := false } ∧
    (∃ e', findEntry (runOps poolW1 [.add "bb" [{ value := 3, scriptPubKey := "q" }],
        .spendReq "bb" 0, .listReq]) "aa" 0 = some e' ∧
      e'.index = 0 ∧ e'.value = 7 ∧ e'.scriptPubKey = "s" ∧
      (({ index := 0, value := 7, scriptPubKey := "s", spent := false } : PoolEntry).spent =
        true → e'.spent = true)) :=
  ⟨by decide, by decide,
   claim8_pool_grows_under_fresh_registration
     [.add "bb" [{ value := 3, scriptPubKey := "q" }], .spendReq "bb" 0, .listReq]
     poolW1 "aa" 0 { index := 0, value := 7, scriptPubKey := "s", spent := false }
     (by decide) (by decide)⟩

/-! Workload-generator lemmas. -/

theorem optionMapList_some (f : α → Option β) :
    ∀ (l : List α) (out : List β), optionMapList f l = some out →
      out.length = l.length ∧ ∀ y ∈ out, ∃ x ∈ l, f x = some y := by
  intro l
  induction l with
  | nil =>
    intro out h
    rw [optionMapList] at h
    cases h
    exact ⟨rfl, by intro y hy; cases hy⟩
  | cons a rest ih =>
    intro out h
    rw [optionMapList] at h
    cases hfa : f a with
    | none => rw [hfa] at h; cases h
    | some b =>
      rw [hfa] at h
      cases hrest : optionMapList f rest with
      | none => rw [hrest] at h; cases h
      | some tl =>
        rw [hrest] at h
        cases h
        obtain ⟨hlen, hmem⟩ := ih tl hrest
        refine ⟨by simp [hlen], ?_⟩
        intro y hy
        rcases List.mem_cons.mp hy with hy | hy
        · refine ⟨a, List.mem_cons_self a rest, ?_⟩
          rw [hy]
          exact hfa
        · obtain ⟨x, hx, hfx⟩ := hmem y hy
          exact ⟨x, List.mem_cons_of_mem a hx, hfx⟩

theorem buildSpendTx_shape (u : UTXORef) (r : Nat) (a b nt : String) :
    (buildSpendTx u r a b nt).inputs = [{ txid := u.txid, index := u.index }] ∧
    (buildSpendTx u r a b nt).outputs.length = 2 ∧
    ((buildSpendTx u r a b nt).outputs.getD 0 dOut).value +
      ((buildSpendTx u r a b nt).outputs.getD 1 dOut).value + 10000 = u.value ∧
    (buildSpendTx u r a b nt).isCoinbase = false := by
  refine ⟨rfl, rfl, ?_, rfl⟩
  show sendAmtOf (max 0 (u.value - 10000 - 1000)) r +
    (u.value - sendAmtOf (max 0 (u.value - 10000 - 1000)) r - 10000) + 10000 = u.value
  ring

theorem mkSpendTxWithId_shape (dsha : List Nat → List Nat) (u : UTXORef) (r : Nat)
    (a b nt : String) (t : Tx) (h : mkSpendTxWithId dsha u r a b nt = some t) :
    t.inputs = [{ txid := u.txid, index := u.index }] ∧ t.outputs.length = 2 ∧
    (t.outputs.getD 0 dOut).value + (t.outputs.getD 1 dOut).value + 10000 = u.value ∧
    t.isCoinbase = false := by
  simp only [mkSpendTxWithId] at h
  cases hid : getTxid dsha (buildSpendTx u r a b nt) with
  | none =>
    rw [hid] at h
    cases h
  | some id =>
    rw [hid] at h
    simp only [Option.bind_eq_bind, Option.some_bind, Option.pure_def] at h
    cases h
    have hs := buildSpendTx_shape u r a b nt
    exact ⟨hs.1, hs.2.1, hs.2.2.1, hs.2.2.2⟩

theorem pickLoop_subset (g : Nat → Nat) :
    ∀ (fuel i : Nat) (chosen poolCopy : List UTXORef) (u : UTXORef),
      u ∈ pickLoop g fuel i chosen poolCopy → u ∈ chosen ∨ u ∈ poolCopy := by
  intro fuel
  induction fuel with
  | zero => intro i chosen poolCopy u hu; exact Or.inl hu
  | succ f ih =>
    intro i chosen poolCopy u hu
    rw [pickLoop] at hu
    by_cases hc : chosen.length < 5 ∧ 0 < poolCopy.length
    · rw [if_pos hc] at hu
      change u ∈ (match poolCopy.get? (g i % poolCopy.length) with
        | none => chosen
        | some x =>
          pickLoop g f (i + 1) (chosen ++ [x]) (poolCopy.eraseIdx (g i % poolCopy.length))) at hu
      split at hu
      · exact Or.inl hu
      · rename_i x hg
        rcases ih (i + 1) (chosen ++ [x]) (poolCopy.eraseIdx (g i % poolCopy.length)) u hu
          with h1 | h2
        · rcases List.mem_append.mp h1 with h1a | h1b
          · exact Or.inl h1a
          · have hx : u = x := by simpa using h1b
            subst hx
            exact Or.inr (List.get?_mem hg)
        · exact Or.inr (List.mem_of_mem_eraseIdx h2)
    · rw [if_neg hc] at hu
      exact Or.inl hu

theorem genTx_shape (dsha : List Nat → List Nat) (chosen : List UTXORef) (ga : Nat → Nat)
    (rh : Nat → String) (i : Nat) (t : Tx)
    (h : (do
        let u ← chosen.get? (i % chosen.length)
        mkSpendTxWithId dsha u (ga i) (rh (3 + 2 * i)) (rh (4 + 2 * i)) (usecaseNote (i % 5)))
      = some t) :
    t.inputs.length = 1 ∧ t.outputs.length = 2 ∧ t.isCoinbase = false ∧
    ∃ u ∈ chosen, t.inputs = [{ txid := u.txid, index := u.index }] ∧
      (t.outputs.getD 0 dOut).value + (t.outputs.getD 1 dOut).value + 10000 = u.value := by
  cases hg : chosen.get? (i % chosen.length) with
  | none => rw [hg] at h; cases h
  | some u =>
    rw [hg] at h
    simp only [Option.bind_eq_bind, Option.some_bind] at h
    obtain ⟨s1, s2, s3, s4⟩ := mkSpendTxWithId_shape dsha u (ga i)
      (rh (3 + 2 * i)) (rh (4 + 2 * i)) (usecaseNote (i % 5)) t h
    exact ⟨by rw [s1]; rfl, s2, s4, u, List.get?_mem hg, s1, s3⟩

theorem createFiveRandomTxs_shape (dsha : List Nat → List Nat) (g ga : Nat → Nat)
    (rh : Nat → String) (pool : Pool) (txs : List Tx)
    (h : (createFiveRandomTxs dsha g ga rh pool).1 = some txs) :
    txs.length = 5 ∧
    ∀ t ∈ txs, t.inputs.length = 1 ∧ t.outputs.length = 2 ∧ t.isCoinbase = false ∧
      ∃ u ∈ candidateUTXOs rh pool, t.inputs = [{ txid := u.txid, index := u.index }] ∧
        (t.outputs.getD 0 dOut).value + (t.outputs.getD 1 dOut).value + 10000 = u.value := by
  simp only [createFiveRandomTxs] at h
  obtain ⟨hlen, hmem⟩ := optionMapList_some _ (List.range 5) txs h
  refine ⟨by simpa using hlen, ?_⟩
  intro t ht
  obtain ⟨x, hx, hfx⟩ := hmem t ht
  obtain ⟨s1, s2, s3, u, hu, s4, s5⟩ := genTx_shape dsha _ ga rh x t hfx
  refine ⟨s1, s2, s3, u, ?_, s4, s5⟩
  rcases pickLoop_subset g _ 0 [] (candidateUTXOs rh pool) u hu with hin | hin
  · cases hin
  · exact hin

theorem mineBlock_some_transactions (dsha : List Nat → List Nat) (sha : String → String)
    (bc : Blockchain) (txs : List Tx) (ts : String) (fuel : Nat)
    (res : Blockchain × Block) (h : mineBlock dsha sha bc txs ts fuel = some res) :
    res.2.transactions = txs := by
  simp only [mineBlock] at h
  split at h
  · cases h
  · split at h
    · cases h
    · rename_i latest hlast mined hmf
      cases h
      exact (mineHeaderFuel_spec sha bc.diff fuel _ mined hmf).2.2.2.2.2.2.1

/-- Claim C9: a successful mining round always carries exactly 6
transactions — the coinbase (sentinel identifier, fixed 50 BTC subsidy,
single sentinel input) first, then the five generated spends — and every
generated spend has exactly one input, consuming a UTXO from the
generator's working copy of the pool (the available entries, extended by
the faucet entry when fewer than 5 are available), and exactly two outputs
whose payment value plus change value plus the fixed fee equals that spent
input's value. -/
theorem claim9_mining_round_structure :
    ∀ (dsha : List Nat → List Nat) (sha : String → String) (g ga : Nat → Nat)
      (rh : Nat → String) (bc : Blockchain) (ts : String) (fuel : Nat)
      (bc1 : Blockchain) (blk : Block) (txs : List Tx),
      apiMine dsha sha g ga rh bc ts fuel = some (bc1, blk, txs) →
      blk.transactions = txs ∧
      txs.length = 6 ∧
      txs.headD dTx = createCoinbaseTx (rh 100) ∧
      (txs.headD dTx).txid = coinbaseSentinel ∧
      (txs.headD dTx).outputs =
        [{ value := 50 * 100000000, scriptPubKey := p2pkhScript (rh 100) }] ∧
      (txs.headD dTx).inputs = [{ txid := coinbaseSentinel, index := 4294967295 }] ∧
      (txs.headD dTx).isCoinbase = true ∧
      ∀ t ∈ txs.tail, t.inputs.length = 1 ∧ t.outputs.length = 2 ∧ t.isCoinbase = false ∧
        ∃ u ∈ candidateUTXOs rh bc.utxo, t.inputs = [{ txid := u.txid, index := u.index }] ∧
          (t.outputs.getD 0 dOut).value + (t.outputs.getD 1 dOut).value + 10000 = u.value := by
  intro dsha sha g ga rh bc ts fuel bc1 blk txs h
  simp only [apiMine] at h
  split at h
  · cases h
  · split at h
    · cases h
    · rename_i xa txs5 hgen xb res hmb
      cases h
      obtain ⟨hlen5, hmem5⟩ := createFiveRandomTxs_shape dsha g ga rh bc.utxo txs5 hgen
      have htx := mineBlock_some_transactions dsha sha _ _ ts fuel res hmb
      refine ⟨htx, by simp [hlen5], rfl, rfl, rfl, rfl, rfl, ?_⟩
      intro t ht
      exact hmem5 t (by simpa using ht)

/-- Witness for C9 at concrete inputs: a mining round over the seeded Alice
pool at difficulty 0 succeeds and its block carries the 6 transactions. -/
theorem claim9_witness :
    (apiMine dshaW shaEmpty gZero gZero rhW bcMineW "t2" 1).isSome = true ∧
    ((apiMine dshaW shaEmpty gZero gZero rhW bcMineW "t2" 1).getD dRes).2.2.length = 6 ∧
    ((apiMine dshaW shaEmpty gZero gZero rhW bcMineW "t2" 1).getD dRes).2.1.transactions =
      ((apiMine dshaW shaEmpty gZero gZero rhW bcMineW "t2" 1).getD dRes).2.2 :=
  ⟨by decide,
   (claim9_mining_round_structure dshaW shaEmpty gZero gZero rhW bcMineW "t2" 1
     ((apiMine dshaW shaEmpty gZero gZero rhW bcMineW "t2" 1).getD dRes).1
     ((apiMine dshaW shaEmpty gZero gZero rhW bcMineW "t2" 1).getD dRes).2.1
     ((apiMine dshaW shaEmpty gZero gZero rhW bcMineW "t2" 1).getD dRes).2.2 rfl).2.1,
   (claim9_mining_round_structure dshaW shaEmpty gZero gZero rhW bcMineW "t2" 1
     ((apiMine dshaW shaEmpty gZero gZero rhW bcMineW "t2" 1).getD dRes).1
     ((apiMine dshaW shaEmpty gZero gZero rhW bcMineW "t2" 1).getD dRes).2.1
     ((apiMine dshaW shaEmpty gZero gZero rhW bcMineW "t2" 1).getD dRes).2.2 rfl).1⟩

end Server


